import Mathlib

/-!
Verification development for `unit/unit.go`.

A shallow embedding of the `unit` package: the status value types and their
string rendering, the `Unit` aggregate with its load mutators and log buffer,
the `Supervisable` interface, `ReadLog`, and the dependency start-up
procedure `Unit.Start`.

Conventions of the embedding.

* The enumerations are Go `int` types; they are embedded as wrappers around
  `Int`, with the declared constants as named values.
* A byte is a `Nat`; a byte slice is a `List Nat`.
* A Go `error` is either the sentinel `io.EOF` or a value made by
  `errors.New`, identified by its message.
* An interface value of type `Supervisable` is the record of its methods, each
  a transformer of the program state `σ` in which the object lives.
* A method that may not return (`Start`) yields an `Option`; `none` means that
  the call does not return.  The polling loop of `Unit.Start` is bounded by a
  fuel argument; running out of fuel also yields `none`.
* `Unit.Start` takes the started unit as a value and reads its two lists as
  they are at the call; `Unit.StartAt` is the same call on a unit that lives
  in the program state, where its members can reach it.
-/

namespace unit

/-! ## Status model -/

/-- Activation status of a unit (`type ActivationState int`). -/
structure ActivationState where
  val : Int
  deriving DecidableEq, Repr

/-- Enable status of a unit (`type EnableState int`). -/
structure EnableState where
  val : Int
  deriving DecidableEq, Repr

/-- Load status of a unit (`type LoadState int`). -/
structure LoadState where
  val : Int
  deriving DecidableEq, Repr

def Inactive : ActivationState := ⟨0⟩
def Activating : ActivationState := ⟨1⟩
def Active : ActivationState := ⟨2⟩
def Failed : ActivationState := ⟨3⟩

def Disabled : EnableState := ⟨0⟩
def Static : EnableState := ⟨1⟩
def Indirect : EnableState := ⟨2⟩
def Enabled : EnableState := ⟨3⟩

def Loaded : LoadState := ⟨0⟩
def Error : LoadState := ⟨1⟩

structure VendorStatus where
  State : EnableState
  deriving DecidableEq, Repr

structure LoadStatus where
  Status : LoadState
  Path : String
  State : EnableState
  Vendor : VendorStatus
  deriving DecidableEq, Repr

structure ActivationStatus where
  Status : ActivationState
  Sub : String
  deriving DecidableEq, Repr

structure UnitStatus where
  Load : LoadStatus
  Act : ActivationStatus
  deriving DecidableEq, Repr

/-- The `String` methods that `stringer` generates for the three enumerations
(`//go:generate stringer -type=...`).  The generated files are not part of the
source, so the three renderings are parameters of the development. -/
structure Stringers where
  activationState : ActivationState → String
  enableState : EnableState → String
  loadState : LoadState → String

/-- The fragment of `fmt.Sprintf` used by the package: a format made of literal
characters, `%s` verbs and `%%`, applied to operands that are strings or
`Stringer`s already rendered by their `String` method.  A `%s` copies its
operand without rescanning it.  Anything outside the fragment (another verb, a
missing or an extra operand) yields `none`. -/
def sprintfAux : List Char → List String → Option (List Char)
  | [], [] => some []
  | [], _ :: _ => none
  | c :: fmt, args =>
    if c = '%' then
      match fmt, args with
      | d :: rest, a :: args' =>
        if d = 's' then (sprintfAux rest args').map (fun r => a.data ++ r)
        else if d = '%' then (sprintfAux rest (a :: args')).map (fun r => '%' :: r)
        else none
      | d :: rest, [] =>
        if d = '%' then (sprintfAux rest []).map (fun r => '%' :: r) else none
      | [], _ => none
    else (sprintfAux fmt args).map (fun r => c :: r)

def Sprintf (format : String) (args : List String) : Option String :=
  (sprintfAux format.data args).map String.mk

/-- Source: `func (s VendorStatus) String() string` -/
def VendorStatus.String (R : Stringers) (s : VendorStatus) : Option String :=
  Sprintf "vendor preset: %s" [R.enableState s.State]

/-- Source: `func (s LoadStatus) String() string`; the `%s` of `s.Vendor` goes through
`VendorStatus.String`. -/
def LoadStatus.String (R : Stringers) (s : LoadStatus) : Option String :=
  (VendorStatus.String R s.Vendor).bind fun v =>
    Sprintf "%s (%s; %s; %s)" [R.loadState s.Status, s.Path, R.enableState s.State, v]

/-- Source: `func (s ActivationStatus) String() string` -/
def ActivationStatus.String (R : Stringers) (s : ActivationStatus) : Option String :=
  Sprintf "%s (%s)" [R.activationState s.Status, s.Sub]

/-- Source: `func (s UnitStatus) String() string`; both operands are `Stringer`s. -/
def UnitStatus.String (R : Stringers) (s : UnitStatus) : Option String :=
  (LoadStatus.String R s.Load).bind fun l =>
    (ActivationStatus.String R s.Act).bind fun a =>
      Sprintf "Loaded: %s\nActive: %s" [l, a]

/-! ## Errors, the log buffer and the interface -/

/-- A Go `error` value: the sentinel `io.EOF`, or a value made by
`errors.New`, identified by its message. -/
inductive error where
  | EOF
  | New (msg : String)
  deriving DecidableEq, Repr

/-- Source: `Error() string` of an error value. -/
def error.Error : error → String
  | .EOF => "EOF"
  | .New msg => msg

/-- The result of an `io.Reader`'s `Read(p)`: the slice `p` as the call left
it, the count `n` and the error. -/
structure ReadResult where
  p : List Nat
  n : Int
  err : Option error
  deriving DecidableEq, Repr

/-- A `bytes.Buffer`, seen through its observable contents: the bytes written
and not yet read. -/
structure Buffer where
  unread : List Nat
  deriving DecidableEq, Repr

/-- Source: `func (b *Buffer) Write(p []byte)`: appends. -/
def Buffer.Write (b : Buffer) (p : List Nat) : Buffer :=
  ⟨b.unread ++ p⟩

/-- Source: `func (b *Buffer) Read(p []byte) (n int, err error)`: with nothing unread
it returns `0, io.EOF` (`0, nil` when `len(p) == 0`); otherwise it copies
`n = min(len(p), unread)` bytes into the front of `p` and consumes them.  The
first component is the buffer after the call. -/
def Buffer.Read (b : Buffer) (p : List Nat) : Buffer × ReadResult :=
  if b.unread = [] then
    (b, ⟨p, 0, if p = [] then none else some error.EOF⟩)
  else
    let n := min p.length b.unread.length
    (⟨b.unread.drop n⟩, ⟨b.unread.take n ++ p.drop n, n, none⟩)

/-- Source: `type Supervisable interface`, restricted to what the package functions
call on it: an interface value is the record of its methods, each acting on the
program state `σ`.  `Start` yields `none` when the call does not return.
`Read` is present exactly when the dynamic type also implements `io.Reader`,
that is when the type assertion `u.(io.Reader)` succeeds. -/
structure Supervisable (σ : Type) where
  Start : σ → Option σ
  Enabled : σ → EnableState × σ
  Active : σ → ActivationState × σ
  Status : σ → UnitStatus × σ
  Read : Option (List Nat → σ → ReadResult × σ)

/-! ## The unit -/

structure Definition.UnitSection where
  Description : String
  Documentation : List String
  After : List String
  Wants : List String
  Requires : List String
  Conflicts : List String
  Before : List String
  deriving DecidableEq, Repr

structure Definition.InstallSection where
  WantedBy : String
  deriving DecidableEq, Repr

structure Definition where
  Unit : Definition.UnitSection
  Install : Definition.InstallSection
  deriving DecidableEq, Repr

/-- The `*log.Logger` made by `log.New(&u.Buffer, prefix, flag)`; its writer is
the buffer of the unit it belongs to. -/
structure Logger where
  pfx : String
  flag : Nat
  deriving DecidableEq, Repr

/-- Source: `log.LstdFlags = Ldate | Ltime` -/
def LstdFlags : Nat := 3

/-- Source: `type Unit struct`.  The embedded pointers `*log.Logger` and `*Definition`
are `none` when nil.  `Deps` and `Conflicts` hold interface values living in
the program state `σ`. -/
structure Unit (σ : Type) where
  Logger : Option Logger
  Buffer : Buffer
  Deps : List (Supervisable σ)
  Conflicts : List (Supervisable σ)
  name : String
  Definition : Option Definition
  loadStatus : LoadStatus

/-- Source: `&Definition{}` -/
def Definition.zero : Definition :=
  ⟨⟨"", [], [], [], [], [], []⟩, ⟨""⟩⟩

/-- Source: `func New() (u *Unit)`: the zero `Unit` with a logger on its own buffer
and a fresh zero definition. -/
def New (σ : Type) : Unit σ where
  Logger := some ⟨"", LstdFlags⟩
  Buffer := ⟨[]⟩
  Deps := []
  Conflicts := []
  name := ""
  Definition := some Definition.zero
  loadStatus := ⟨⟨0⟩, "", ⟨0⟩, ⟨⟨0⟩⟩⟩

section methods
variable {σ : Type}

/-- Source: `func isUp(u Supervisable) bool` -/
def isUp (u : Supervisable σ) (w : σ) : Bool × σ :=
  match u.Active w with
  | (a, w1) => (if a = unit.Active then true else false, w1)

/-- Source: `func Status(u Supervisable) UnitStatus` -/
def Status (u : Supervisable σ) (w : σ) : UnitStatus × σ :=
  u.Status w

/-- Source: `func IsEnabled(u Supervisable) EnableState` -/
def IsEnabled (u : Supervisable σ) (w : σ) : EnableState × σ :=
  u.Enabled w

/-- Source: `func IsActive(u Supervisable) ActivationState` -/
def IsActive (u : Supervisable σ) (w : σ) : ActivationState × σ :=
  u.Active w

/-- Source: `make([]byte, n)`: a slice of `n` zero bytes. -/
def make (n : Nat) : List Nat :=
  List.replicate n 0

/-- Source: `func ReadLog(u Supervisable) (*[]byte, error)`; a nil chunk is `none`,
a nil error is `none`. -/
def ReadLog (u : Supervisable σ) (w : σ) : (Option (List Nat) × Option error) × σ :=
  let b := make 1000
  match u.Read with
  | some read =>
    match read b w with
    | (r, w1) =>
      if r.err ≠ none ∧ r.err ≠ some error.EOF then ((none, r.err), w1)
      else if r.n > 0 then ((some r.p, none), w1)
      else ((none, none), w1)
  | none => ((none, some (error.New "unreadable")), w)

/-- Source: `func (u *Unit) SetLoaded(state LoadState)` -/
def Unit.SetLoaded (u : Unit σ) (state : LoadState) : Unit σ :=
  { u with loadStatus := { u.loadStatus with Status := state } }

/-- Source: `func (u *Unit) SetPath(path string)` -/
def Unit.SetPath (u : Unit σ) (path : String) : Unit σ :=
  { u with loadStatus := { u.loadStatus with Path := path } }

/-- Source: `func (u Unit) Log(v ...interface{})`: `u.Logger.Println(v)` writes one
line to the logger's writer, the buffer of the unit the logger was made for.
The line, time stamp included, is the argument `line`.  A nil logger makes the
call panic (`none`). -/
def Unit.Log (u : Unit σ) (line : List Nat) : Option (Unit σ) :=
  match u.Logger with
  | none => none
  | some _ => some { u with Buffer := u.Buffer.Write line }

/-- Source: `func (u Unit) Read(p []byte) (n int, err error)`.  The receiver is a
value: the call works on a copy of the unit, so the buffer state that
`Buffer.Read` leaves behind belongs to the copy and is dropped. -/
def Unit.Read (u : Unit σ) (p : List Nat) : ReadResult :=
  (u.Buffer.Read p).2

/-- Source: `func (u Unit) Name() string` -/
def Unit.Name (u : Unit σ) : String :=
  u.name

/-- Source: `func (u Unit) Description() string`; a nil `*Definition` makes the call
panic (`none`). -/
def Unit.Description (u : Unit σ) : Option String :=
  u.Definition.map fun d => d.Unit.Description

/-- Source: `func (u Unit) Path() string` -/
def Unit.Path (u : Unit σ) : String :=
  u.loadStatus.Path

/-- Source: `func (u Unit) Enabled() EnableState` -/
def Unit.Enabled (_u : Unit σ) : EnableState :=
  unit.Enabled

/-- Source: `func (u Unit) Loaded() LoadState` -/
def Unit.Loaded (u : Unit σ) : LoadState :=
  u.loadStatus.Status

/-- Source: `func (u Unit) Active() ActivationState` -/
def Unit.Active (_u : Unit σ) : ActivationState :=
  unit.Active

/-- Source: `func (u Unit) Sub() string` -/
def Unit.Sub (_u : Unit σ) : String :=
  "unavailable"

/-- Source: `func (u Unit) Status() UnitStatus` -/
def Unit.Status (u : Unit σ) : UnitStatus :=
  ⟨⟨u.Loaded, u.Path, u.Enabled, ⟨u.Enabled⟩⟩, ⟨u.Active, u.Sub⟩⟩

end methods

/-! ## Starting a unit -/

/-- Which of the two relationship lists of the started unit a call goes to. -/
inductive Rel where
  | Conflicts
  | Deps
  deriving DecidableEq, Repr

/-- One observable step of `Unit.Start`: `Active l i a` is the `isUp` test of
member `i` of list `l`, that is one `Active()` query, which reported `a`;
`Start l i` is the call `Start()` on that member; `Sleep` is one
`time.Sleep(300 * time.Millisecond)`. -/
inductive Call where
  | Active (l : Rel) (i : Nat) (a : ActivationState)
  | Start (l : Rel) (i : Nat)
  | Sleep
  deriving DecidableEq, Repr

/-- The outcome of a piece of `Unit.Start`: the calls made, in order (each
`isUp` test is logged with the state its `Active()` query reported), and the
program state reached, `none` when the piece does not return (a `Start()` that
does not return, or a polling loop that outlasts the fuel). -/
abbrev Run (σ : Type) := List Call × Option σ

section start
variable {σ : Type}

/-- Sequencing: `f` runs from the state `r` ends in, if it ends. -/
def Run.andThen (r : Run σ) (f : σ → Run σ) : Run σ :=
  match r.2 with
  | none => r
  | some w => (r.1 ++ (f w).1, (f w).2)

/-- The first loop of `Start`: `for _, dep := range u.Conflicts`, from member
`i` on.  The body of `if isUp(dep)` is empty. -/
def conflictLoop : List (Supervisable σ) → Nat → σ → Run σ
  | [], _, w => ([], some w)
  | dep :: rest, i, w =>
    match isUp dep w with
    | (_, w1) =>
      let r := conflictLoop rest (i + 1) w1
      (Call.Active Rel.Conflicts i (dep.Active w).1 :: r.1, r.2)

/-- The second loop of `Start`: `for _, dep := range u.Deps`, from member `i`
on, calling `dep.Start()` when `!isUp(dep)`. -/
def startLoop : List (Supervisable σ) → Nat → σ → Run σ
  | [], _, w => ([], some w)
  | dep :: rest, i, w =>
    match isUp dep w with
    | (true, w1) =>
      let r := startLoop rest (i + 1) w1
      (Call.Active Rel.Deps i (dep.Active w).1 :: r.1, r.2)
    | (false, w1) =>
      match dep.Start w1 with
      | none => ([Call.Active Rel.Deps i (dep.Active w).1, Call.Start Rel.Deps i], none)
      | some w2 =>
        let r := startLoop rest (i + 1) w2
        (Call.Active Rel.Deps i (dep.Active w).1 :: Call.Start Rel.Deps i :: r.1, r.2)

/-- The inner loop `for !isUp(dep) { time.Sleep(...) }` on member `i`, allowed
`fuel` tests of `isUp`.  `sleep` is what the rest of the program does to the
state during one sleep. -/
def pollLoop (sleep : σ → σ) (dep : Supervisable σ) (i : Nat) : Nat → σ → Run σ
  | 0, _ => ([], none)
  | fuel + 1, w =>
    match isUp dep w with
    | (true, w1) => ([Call.Active Rel.Deps i (dep.Active w).1], some w1)
    | (false, w1) =>
      let r := pollLoop sleep dep i fuel (sleep w1)
      (Call.Active Rel.Deps i (dep.Active w).1 :: Call.Sleep :: r.1, r.2)

/-- The third loop of `Start`: `for _, dep := range u.Deps`, from member `i`
on, polling each member until it is up. -/
def waitLoop (sleep : σ → σ) (fuel : Nat) : List (Supervisable σ) → Nat → σ → Run σ
  | [], _, w => ([], some w)
  | dep :: rest, i, w =>
    (pollLoop sleep dep i fuel w).andThen (waitLoop sleep fuel rest (i + 1))

/-- Source: `func (u *Unit) Start()`: the three loops in sequence.  The lists
`u.Conflicts` and `u.Deps` are read from the unit as it is at the call. -/
def Unit.Start (sleep : σ → σ) (fuel : Nat) (u : Unit σ) (w : σ) : Run σ :=
  (conflictLoop u.Conflicts 0 w).andThen fun w1 =>
    (startLoop u.Deps 0 w1).andThen fun w2 =>
      waitLoop sleep fuel u.Deps 0 w2

/-- The interface value whose methods are those of `*Unit` (a concrete unit
kind embeds the unit and adds the `Stop` that `Unit` itself lacks): the program
state is the unit pointed to together with the state its relationships live
in.  Its `Start` polls with the given `sleep` and `fuel`.  `Read` is the
promoted value-receiver method, so the unit in the state is left as it was. -/
def Unit.toSupervisable (sleep : σ → σ) (fuel : Nat) : Supervisable (Unit σ × σ) where
  Start := fun s => (Unit.Start sleep fuel s.1 s.2).2.map fun w => (s.1, w)
  Enabled := fun s => (s.1.Enabled, s)
  Active := fun s => (s.1.Active, s)
  Status := fun s => (s.1.Status, s)
  Read := some fun p s => (s.1.Read p, s)

end start

/-! ## Test doubles

Program states and interface values on which the procedures are evaluated. -/

/-- A fake whose `Active()` reads a fixed script indexed by the program state,
a clock: it answers `script t` at time `t`; `Start()` returns at once and
leaves the clock alone. -/
def scripted (script : Nat → ActivationState) : Supervisable Nat where
  Start := fun t => some t
  Enabled := fun t => (Enabled, t)
  Active := fun t => (script t, t)
  Status := fun t => (⟨⟨Loaded, "", Enabled, ⟨Enabled⟩⟩, ⟨script t, ""⟩⟩, t)
  Read := none

/-- A fake that reports the same state for ever. -/
def constant (a : ActivationState) : Supervisable Nat :=
  scripted fun _ => a

/-- A fake that reports `a` until the clock reaches `t0` and `Active` from
then on. -/
def upAfter (a : ActivationState) (t0 : Nat) : Supervisable Nat :=
  scripted fun t => if t < t0 then a else Active

/-- One sleep advances the clock by one. -/
def tick (t : Nat) : Nat := t + 1

/-- A unit in conflict with a unit that reports `Active`, and depending on a
unit that is `Inactive` until the clock reaches 1. -/
def conflictedUnit : Unit Nat :=
  { New Nat with Conflicts := [constant Active], Deps := [upAfter Inactive 1] }

/-- A unit depending on a unit that is `Inactive` until the clock reaches 1. -/
def dependentUnit : Unit Nat :=
  { New Nat with Deps := [upAfter Inactive 1] }

/-- A unit depending on a unit that is `Activating` until the clock reaches 1. -/
def eagerUnit : Unit Nat :=
  { New Nat with Deps := [upAfter Activating 1] }

/-- A unit depending on a unit that reports `Failed` for ever. -/
def doomedUnit : Unit Nat :=
  { New Nat with Deps := [constant Failed] }

/-- What the second loop of `Start` does on member `p.1` of `Deps` that
reported `p.2`: the query alone when it reported `Active`, the query followed
by `Start()` otherwise. -/
def triggerBlock (p : Nat × ActivationState) : List Call :=
  if p.2 = Active then [Call.Active Rel.Deps p.1 p.2]
  else [Call.Active Rel.Deps p.1 p.2, Call.Start Rel.Deps p.1]

/-- Reporting `Active` is stable for `d`: once `d` has reported `Active` in
some state, it reports `Active` again after a sleep and after an `Active()`
query on any member of `all`. -/
def StableUp {σ : Type} (sleep : σ → σ) (all : List (Supervisable σ))
    (d : Supervisable σ) : Prop :=
  ∀ v, (d.Active v).1 = Active →
    (d.Active (sleep v)).1 = Active ∧ ∀ e ∈ all, (d.Active (e.Active v).2).1 = Active

/-- A unit made by `New` that has logged the three bytes of the line `hi`. -/
def loggedUnit : Unit Nat :=
  { New Nat with Buffer := (New Nat).Buffer.Write [104, 105, 10] }

/-- A `Supervisable` that is an `io.Reader` whose `Read` delivers nothing and
fails with `errors.New("unreadable")`. -/
def failingReader : Supervisable Nat :=
  { constant Inactive with
    Read := some fun p t => (⟨p, 0, some (error.New "unreadable")⟩, t) }

/-- A concrete unit as a member of a relationship list: the interface value
of a `*Unit` found in the program state `τ` by `get`.  Its accessors are those
of `Unit`; `Read` is the promoted value-receiver method and leaves the state
alone.  Its `Start` is `start`: whatever starting that unit does, given the
relationships it has itself, cycles included. -/
def Unit.asMember {τ ρ : Type} (get : τ → Unit ρ) (start : τ → Option τ) : Supervisable τ where
  Start := start
  Enabled := fun s => ((get s).Enabled, s)
  Active := fun s => ((get s).Active, s)
  Status := fun s => ((get s).Status, s)
  Read := some fun p s => ((get s).Read p, s)

/-- The interface value `d` is a concrete unit, one whose fields are units
over `ρ`. -/
def IsConcrete {τ : Type} (ρ : Type) (d : Supervisable τ) : Prop :=
  ∃ (get : τ → Unit ρ) (start : τ → Option τ), d = Unit.asMember get start

/-- The states of a unit reachable from `New()` by `SetPath`, `SetLoaded`,
`Log` and `Start`. -/
inductive Unit.Reachable {σ : Type} (sleep : σ → σ) (fuel : Nat) : Unit σ → Prop where
  | new : Unit.Reachable sleep fuel (New σ)
  | setPath (u : Unit σ) (p : String) :
      Unit.Reachable sleep fuel u → Unit.Reachable sleep fuel (u.SetPath p)
  | setLoaded (u : Unit σ) (s : LoadState) :
      Unit.Reachable sleep fuel u → Unit.Reachable sleep fuel (u.SetLoaded s)
  | log (u v : Unit σ) (line : List Nat) :
      Unit.Reachable sleep fuel u → u.Log line = some v → Unit.Reachable sleep fuel v
  | start (u v : Unit σ) (w w1 : σ) :
      Unit.Reachable sleep fuel u →
      (Unit.toSupervisable sleep fuel).Start (u, w) = some (v, w1) →
      Unit.Reachable sleep fuel v

/-- The list position a call starts, if the call is a `Start()`. -/
def startIndex : Call → Option Nat
  | Call.Start _ i => some i
  | _ => none

/-- Two interface values that differ at most in what `Enabled()` does. -/
def SameButEnabled {σ : Type} (d e : Supervisable σ) : Prop :=
  d.Start = e.Start ∧ d.Active = e.Active ∧ d.Status = e.Status ∧ d.Read = e.Read

/-- The fake `d` with `Enabled()` reporting `en`. -/
def withEnabled {σ : Type} (d : Supervisable σ) (en : EnableState) : Supervisable σ :=
  { d with Enabled := fun w => (en, w) }

/-- A unit whose dependency and conflict are both a concrete unit, the one in
the first component of the program state, whose own `Start` runs with one
poll allowed. -/
def peeredUnit : Unit (Unit Nat × Nat) :=
  { New (Unit Nat × Nat) with
    Deps := [Unit.toSupervisable tick 1]
    Conflicts := [Unit.toSupervisable tick 1] }

/-- A concrete unit in load state `Error` whose own dependency never comes
up. -/
def brokenPeer : Unit Nat :=
  { (New Nat).SetLoaded Error with Deps := [constant Failed] }

/-- A unit whose only dependency reports `Active` for ever. -/
def settledUnit : Unit Nat :=
  { New Nat with Deps := [constant Active] }

/-- A unit whose first dependency is `Active` and whose second dependency is
disabled and `Inactive` until the clock reaches 1. -/
def lateDisabledUnit : Unit Nat :=
  { New Nat with Deps := [constant Active, withEnabled (upAfter Inactive 1) Disabled] }

/-- The same unit with the second dependency enabled. -/
def lateEnabledUnit : Unit Nat :=
  { New Nat with Deps := [constant Active, upAfter Inactive 1] }

/-- Source: `func (u *Unit) Start()` called on a unit that lives in the program
state: `get` reads the unit the receiver points to.  The members act on the
same state, so a member that holds the unit can write to it. -/
def Unit.StartAt {σ : Type} (get : σ → Unit σ) (sleep : σ → σ) (fuel : Nat) (w : σ) : Run σ :=
  Unit.Start sleep fuel (get w) w

/-- A program state in which the started unit itself lives: a clock, and the
load status and log buffer of the unit, which whoever holds the unit can
write through `SetPath`, `SetLoaded` and `Log`. -/
structure World where
  clock : Nat
  loadStatus : LoadStatus
  Buffer : Buffer
  deriving DecidableEq, Repr

/-- The unit of a `World`, with the given relationship lists. -/
def World.unit (deps conflicts : List (Supervisable World)) (w : World) : Unit World :=
  { New World with
    loadStatus := w.loadStatus
    Buffer := w.Buffer
    Deps := deps
    Conflicts := conflicts }

/-- Writing the unit `u` back to the `World`. -/
def World.put (w : World) (u : Unit World) : World :=
  { w with loadStatus := u.loadStatus, Buffer := u.Buffer }

/-- One sleep advances the clock of the `World` by one. -/
def World.tick (w : World) : World :=
  { w with clock := w.clock + 1 }

/-- The `World` at the start: clock 0 and the unit as `New()` makes it. -/
def World.init : World :=
  ⟨0, (New World).loadStatus, (New World).Buffer⟩

/-- A member that holds the unit that depends on it: its `Start()` calls
`SetPath` and `Log` on that unit and comes up; it reports `Active` from then
on. -/
def meddler : Supervisable World where
  Start := fun w =>
    (((World.unit [] [] w).SetPath "/moved").Log [111, 107, 10]).map fun u =>
      World.put { w with clock := w.clock + 1 } u
  Enabled := fun w => (Enabled, w)
  Active := fun w => (if w.clock = 0 then Inactive else Active, w)
  Status := fun w =>
    (⟨⟨Loaded, "", Enabled, ⟨Enabled⟩⟩, ⟨if w.clock = 0 then Inactive else Active, ""⟩⟩, w)
  Read := none

/-- A member that keeps to itself: its `Start()` only advances the clock; it
reports `Active` once the clock has left 0. -/
def quietMember : Supervisable World where
  Start := fun w => some { w with clock := w.clock + 1 }
  Enabled := fun w => (Enabled, w)
  Active := fun w => (if w.clock = 0 then Inactive else Active, w)
  Status := fun w =>
    (⟨⟨Loaded, "", Enabled, ⟨Enabled⟩⟩, ⟨if w.clock = 0 then Inactive else Active, ""⟩⟩, w)
  Read := none

/-! ## Theorems: status model and accessors -/

theorem Sprintf_ActivationStatus (x y : String) :
    Sprintf "%s (%s)" [x, y] = some (x ++ " (" ++ y ++ ")") := by
  simp [Sprintf, sprintfAux]
  apply String.ext
  simp

theorem Sprintf_VendorStatus (x : String) :
    Sprintf "vendor preset: %s" [x] = some ("vendor preset: " ++ x) := by
  simp [Sprintf, sprintfAux]
  apply String.ext
  simp

theorem Sprintf_LoadStatus (a b c d : String) :
    Sprintf "%s (%s; %s; %s)" [a, b, c, d]
      = some (a ++ " (" ++ b ++ "; " ++ c ++ "; " ++ d ++ ")") := by
  simp [Sprintf, sprintfAux]
  apply String.ext
  simp

theorem Sprintf_UnitStatus (x y : String) :
    Sprintf "Loaded: %s\nActive: %s" [x, y] = some ("Loaded: " ++ x ++ "\nActive: " ++ y) := by
  simp [Sprintf, sprintfAux]
  apply String.ext
  simp

/-- C9: the three renderings follow their fixed templates and always produce a
string.  With `render` the `String` method of each enumeration,
`a.String() = render(a.Status) ++ " (" ++ a.Sub ++ ")"`,
`l.String() = render(l.Status) ++ " (" ++ l.Path ++ "; " ++ render(l.State)
++ "; vendor preset: " ++ render(l.Vendor.State) ++ ")"` and
`s.String() = "Loaded: " ++ s.Load.String() ++ "\nActive: " ++ s.Act.String()`. -/
theorem String_templates (R : Stringers) (s : UnitStatus) (l : LoadStatus)
    (a : ActivationStatus) :
    a.String R = some (R.activationState a.Status ++ " (" ++ a.Sub ++ ")")
    ∧ l.String R = some (R.loadState l.Status ++ " (" ++ l.Path ++ "; "
        ++ R.enableState l.State ++ "; " ++ ("vendor preset: " ++ R.enableState l.Vendor.State)
        ++ ")")
    ∧ (∃ ls as, s.Load.String R = some ls ∧ s.Act.String R = some as
        ∧ s.String R = some ("Loaded: " ++ ls ++ "\nActive: " ++ as)) := by
  have hA : ∀ x : ActivationStatus,
      x.String R = some (R.activationState x.Status ++ " (" ++ x.Sub ++ ")") :=
    fun x => Sprintf_ActivationStatus _ _
  have hL : ∀ x : LoadStatus, x.String R = some (R.loadState x.Status ++ " (" ++ x.Path
      ++ "; " ++ R.enableState x.State ++ "; "
      ++ ("vendor preset: " ++ R.enableState x.Vendor.State) ++ ")") := by
    intro x
    simp only [LoadStatus.String, VendorStatus.String, Sprintf_VendorStatus, Option.some_bind,
      Sprintf_LoadStatus]
  refine ⟨hA a, hL l, _, _, hL s.Load, hA s.Act, ?_⟩
  simp only [UnitStatus.String, hL, hA, Option.some_bind, Sprintf_UnitStatus]

/-- C6: the unit returned by `New()` has an empty definition, an empty path and
load state `Loaded`, but its activation state, as reported by `Active()` and by
`Status().Act.Status`, is `Active`, not `Inactive`. -/
theorem New_reports_Active (σ : Type) :
    (New σ).Description = some ""
    ∧ (New σ).Definition = some ⟨⟨"", [], [], [], [], [], []⟩, ⟨""⟩⟩
    ∧ (New σ).Path = ""
    ∧ (New σ).Loaded = Loaded
    ∧ (New σ).Active = Active
    ∧ (New σ).Status.Act.Status = Active
    ∧ (New σ).Active ≠ Inactive
    ∧ (New σ).Status.Act.Status ≠ Inactive := by
  refine ⟨rfl, rfl, rfl, rfl, rfl, rfl, ?_, ?_⟩ <;>
    · show (⟨2⟩ : ActivationState) ≠ ⟨0⟩
      decide

/-- C10: `SetPath` and `SetLoaded` round-trip through `Path` and `Loaded`,
leave each other's field and every other part of the unit alone (definition,
`Deps`, `Conflicts`, log buffer, logger, name, and what `Active`, `Enabled` and
`Sub` report), are idempotent, and the last write wins. -/
theorem SetPath_SetLoaded_frame {σ : Type} (u : Unit σ) (p q : String) (s t : LoadState) :
    ((u.SetPath p).Path = p ∧ (u.SetPath p).Loaded = u.Loaded)
    ∧ ((u.SetLoaded s).Loaded = s ∧ (u.SetLoaded s).Path = u.Path)
    ∧ ((u.SetPath p).Definition = u.Definition ∧ (u.SetLoaded s).Definition = u.Definition
        ∧ (u.SetPath p).Description = u.Description
        ∧ (u.SetLoaded s).Description = u.Description)
    ∧ ((u.SetPath p).Deps = u.Deps ∧ (u.SetLoaded s).Deps = u.Deps)
    ∧ ((u.SetPath p).Conflicts = u.Conflicts ∧ (u.SetLoaded s).Conflicts = u.Conflicts)
    ∧ ((u.SetPath p).Buffer = u.Buffer ∧ (u.SetLoaded s).Buffer = u.Buffer)
    ∧ ((u.SetPath p).Logger = u.Logger ∧ (u.SetLoaded s).Logger = u.Logger)
    ∧ ((u.SetPath p).Name = u.Name ∧ (u.SetLoaded s).Name = u.Name)
    ∧ ((u.SetPath p).Active = u.Active ∧ (u.SetLoaded s).Active = u.Active)
    ∧ ((u.SetPath p).Enabled = u.Enabled ∧ (u.SetLoaded s).Enabled = u.Enabled)
    ∧ ((u.SetPath p).Sub = u.Sub ∧ (u.SetLoaded s).Sub = u.Sub)
    ∧ ((u.SetPath p).SetPath p = u.SetPath p ∧ (u.SetLoaded s).SetLoaded s = u.SetLoaded s)
    ∧ ((u.SetPath p).SetPath q = u.SetPath q ∧ (u.SetLoaded s).SetLoaded t = u.SetLoaded t) := by
  refine ⟨⟨rfl, rfl⟩, ⟨rfl, rfl⟩, ⟨rfl, rfl, rfl, rfl⟩, ⟨rfl, rfl⟩, ⟨rfl, rfl⟩, ⟨rfl, rfl⟩,
    ⟨rfl, rfl⟩, ⟨rfl, rfl⟩, ⟨rfl, rfl⟩, ⟨rfl, rfl⟩, ⟨rfl, rfl⟩, ⟨rfl, rfl⟩, ⟨rfl, rfl⟩⟩

/-! ## Theorems: the log -/

theorem make_length (n : Nat) : (make n).length = n := by
  simp [make]

/-- Source: `ReadLog` on a `*Unit` leaves the unit, its buffer included, as it was. -/
theorem ReadLog_Unit_state {σ : Type} (sleep : σ → σ) (fuel : Nat) (s : Unit σ × σ) :
    (ReadLog (Unit.toSupervisable sleep fuel) s).2 = s := by
  simp only [ReadLog, Unit.toSupervisable]
  split_ifs <;> rfl

/-- Source: `ReadLog` on a `*Unit` with unread bytes returns the zeroed slice with the
first `min(1000, k)` unread bytes copied to its front. -/
theorem ReadLog_Unit_chunk {σ : Type} (sleep : σ → σ) (fuel : Nat) (s : Unit σ × σ)
    (h : s.1.Buffer.unread ≠ []) :
    (ReadLog (Unit.toSupervisable sleep fuel) s).1
      = (some (s.1.Buffer.unread.take (min 1000 s.1.Buffer.unread.length)
          ++ (make 1000).drop (min 1000 s.1.Buffer.unread.length)), none) := by
  have hpos : 0 < s.1.Buffer.unread.length := List.length_pos.mpr h
  simp only [ReadLog, Unit.toSupervisable, Unit.Read, Buffer.Read, if_neg h, make_length]
  have hn : (0 : Int) < ((min 1000 s.1.Buffer.unread.length : Nat) : Int) := by
    have : 0 < min 1000 s.1.Buffer.unread.length := by omega
    exact_mod_cast this
  simp [hn, hpos]

/-- C4: on a unit made by `New` holding three unread bytes, `ReadLog` returns
the chunk with those bytes in front of the zeroed rest of the slice, the unit's
buffer still holds the same three unread bytes afterwards, and a second
`ReadLog` returns the same chunk again instead of `(nil, nil)`. -/
theorem ReadLog_does_not_drain :
    loggedUnit.Buffer.unread = [104, 105, 10]
    ∧ (ReadLog (Unit.toSupervisable tick 1) (loggedUnit, 0)).1
        = (some ([104, 105, 10] ++ (make 1000).drop 3), none)
    ∧ (ReadLog (Unit.toSupervisable tick 1) (loggedUnit, 0)).2.1.Buffer.unread
        = [104, 105, 10]
    ∧ (ReadLog (Unit.toSupervisable tick 1)
        (ReadLog (Unit.toSupervisable tick 1) (loggedUnit, 0)).2).1
        = (some ([104, 105, 10] ++ (make 1000).drop 3), none) := by
  have hu : loggedUnit.Buffer.unread = [104, 105, 10] := rfl
  have h1 : (ReadLog (Unit.toSupervisable tick 1) (loggedUnit, 0)).1
      = (some ([104, 105, 10] ++ (make 1000).drop 3), none) := by
    rw [ReadLog_Unit_chunk tick 1 (loggedUnit, 0) (by rw [hu]; exact List.cons_ne_nil _ _)]
    simp [hu]
  refine ⟨hu, h1, ?_, ?_⟩
  · rw [ReadLog_Unit_state]
    exact hu
  · rw [ReadLog_Unit_state]
    exact h1

/-- C5, as stated, fails: a `Supervisable` that is a reader whose `Read` fails
with an error reading `unreadable` gets `(nil, error "unreadable")` from
`ReadLog` although it is a reader. -/
theorem ReadLog_unreadable_from_reader :
    failingReader.Read.isSome = true
    ∧ (ReadLog failingReader 0).1.1 = none
    ∧ (ReadLog failingReader 0).1.2.map error.Error = some "unreadable" := by
  refine ⟨rfl, rfl, ?_⟩
  decide

/-- C5, amended: `ReadLog` returns `(nil, error "unreadable")` when `u` is not
a reader.  When `u` is a reader, `Read` is called once on a zeroed slice of
1000 bytes and the state it leaves is the state after `ReadLog`; if `Read`
returned an error other than `io.EOF` the result is `(nil, that error)`;
otherwise the result is the slice with a nil error when `n > 0` and
`(nil, nil)` when `n ≤ 0`.  So for a reader the error of the result is nil or
the very error `Read` returned. -/
theorem ReadLog_classification {σ : Type} (u : Supervisable σ) (w : σ) :
    (u.Read = none → ReadLog u w = ((none, some (error.New "unreadable")), w))
    ∧ (∀ read, u.Read = some read →
        (ReadLog u w).2 = (read (make 1000) w).2
        ∧ (∀ e, (read (make 1000) w).1.err = some e → e ≠ error.EOF →
            (ReadLog u w).1 = (none, some e))
        ∧ ((read (make 1000) w).1.err = none
              ∨ (read (make 1000) w).1.err = some error.EOF →
            (0 < (read (make 1000) w).1.n →
              (ReadLog u w).1 = (some (read (make 1000) w).1.p, none))
            ∧ ((read (make 1000) w).1.n ≤ 0 → (ReadLog u w).1 = (none, none))
            ∧ (((ReadLog u w).1.1 ≠ none ∧ (ReadLog u w).1.2 = none)
                ↔ 0 < (read (make 1000) w).1.n))) := by
  constructor
  · intro h
    simp [ReadLog, h]
  · intro read h
    refine ⟨?_, ?_, ?_⟩
    · simp only [ReadLog, h]
      split_ifs <;> rfl
    · intro e he hne
      simp [ReadLog, h, he, hne]
    · intro hok
      have hcond : ¬ ((read (make 1000) w).1.err ≠ none
          ∧ (read (make 1000) w).1.err ≠ some error.EOF) := by
        rcases hok with h1 | h1 <;> simp [h1]
      refine ⟨?_, ?_, ?_⟩
      · intro hn
        simp only [ReadLog, h, if_neg hcond, gt_iff_lt, if_pos hn]
      · intro hn
        simp only [ReadLog, h, if_neg hcond, gt_iff_lt, if_neg (not_lt.mpr hn)]
      · by_cases hn : 0 < (read (make 1000) w).1.n
        · simp only [ReadLog, h, if_neg hcond, gt_iff_lt, if_pos hn]
          simp [hn]
        · simp only [ReadLog, h, if_neg hcond, gt_iff_lt, if_neg hn]
          simp [hn]

/-! ## Theorems: starting a unit -/

section start_lemmas
variable {σ : Type}

theorem isUp_fst (d : Supervisable σ) (w : σ) :
    (isUp d w).1 = true ↔ (d.Active w).1 = Active := by
  simp [isUp]

theorem isUp_snd (d : Supervisable σ) (w : σ) : (isUp d w).2 = (d.Active w).2 := rfl

theorem andThen_none (r : Run σ) (f : σ → Run σ) (h : r.2 = none) : r.andThen f = r := by
  simp [Run.andThen, h]

theorem andThen_some (r : Run σ) (f : σ → Run σ) (w : σ) (h : r.2 = some w) :
    r.andThen f = (r.1 ++ (f w).1, (f w).2) := by
  simp [Run.andThen, h]

/-- The first loop only queries: it returns, and its calls are one `Active()`
query per member, in list order. -/
theorem conflictLoop_shape (cs : List (Supervisable σ)) (i : Nat) (w : σ) :
    ∃ as w1, as.length = cs.length
      ∧ conflictLoop cs i w
          = ((List.enumFrom i as).map fun p => Call.Active Rel.Conflicts p.1 p.2, some w1) := by
  induction cs generalizing i w with
  | nil => exact ⟨[], w, rfl, rfl⟩
  | cons d rest ih =>
    obtain ⟨as, w1, hlen, hrun⟩ := ih (i + 1) (isUp d w).2
    refine ⟨(d.Active w).1 :: as, w1, by simp [hlen], ?_⟩
    simp only [conflictLoop, hrun, List.enumFrom_cons, List.map_cons]

theorem isUp_of_up (d : Supervisable σ) (w : σ) (h : (d.Active w).1 = Active) :
    isUp d w = (true, (d.Active w).2) := by
  simp [isUp, h]

theorem isUp_of_down (d : Supervisable σ) (w : σ) (h : (d.Active w).1 ≠ Active) :
    isUp d w = (false, (d.Active w).2) := by
  simp [isUp, h]

/-- The second loop, call by call: member after member, the query, followed by
`Start()` exactly when the query did not report `Active`.  The loop stops
early only at a `Start()` that does not return. -/
theorem startLoop_shape (deps : List (Supervisable σ)) (i : Nat) (w : σ) :
    ∃ as, as.length ≤ deps.length
      ∧ ((startLoop deps i w).2 ≠ none → as.length = deps.length)
      ∧ (startLoop deps i w).1 = (List.enumFrom i as).flatMap triggerBlock := by
  induction deps generalizing i w with
  | nil => exact ⟨[], le_refl _, fun _ => rfl, rfl⟩
  | cons d rest ih =>
    by_cases h : (d.Active w).1 = Active
    · obtain ⟨as, hle, hfull, htr⟩ := ih (i + 1) (d.Active w).2
      refine ⟨(d.Active w).1 :: as, by simpa using hle, ?_, ?_⟩
      · intro hret
        simp only [startLoop, isUp_of_up d w h] at hret
        simp [hfull hret]
      · simp only [startLoop, isUp_of_up d w h, htr, List.enumFrom_cons, List.flatMap_cons]
        simp [triggerBlock, h]
    · cases hs : d.Start (d.Active w).2 with
      | none =>
        refine ⟨[(d.Active w).1], by simp, ?_, ?_⟩
        · intro hret
          simp [startLoop, isUp_of_down d w h, hs] at hret
        · simp [startLoop, isUp_of_down d w h, hs, triggerBlock, h]
      | some w2 =>
        obtain ⟨as, hle, hfull, htr⟩ := ih (i + 1) w2
        refine ⟨(d.Active w).1 :: as, by simpa using hle, ?_, ?_⟩
        · intro hret
          simp only [startLoop, isUp_of_down d w h, hs] at hret
          simp [hfull hret]
        · simp only [startLoop, isUp_of_down d w h, hs, htr, List.enumFrom_cons,
            List.flatMap_cons]
          simp [triggerBlock, h]

/-- With every member reporting `Active`, the second loop returns having made
only queries. -/
theorem startLoop_all_up (deps : List (Supervisable σ)) (i : Nat) (w : σ)
    (hup : ∀ d ∈ deps, ∀ v, (d.Active v).1 = Active) :
    ∃ w1, (startLoop deps i w).2 = some w1
      ∧ ∀ c ∈ (startLoop deps i w).1, ∃ j, c = Call.Active Rel.Deps j Active := by
  induction deps generalizing i w with
  | nil => exact ⟨w, rfl, by simp [startLoop]⟩
  | cons d rest ih =>
    have h := hup d (List.mem_cons_self _ _) w
    obtain ⟨w1, hret, htr⟩ := ih (i + 1) (d.Active w).2
      (fun e he => hup e (List.mem_cons_of_mem _ he))
    refine ⟨w1, ?_, ?_⟩
    · simp only [startLoop, isUp_of_up d w h, hret]
    · intro c hc
      simp only [startLoop, isUp_of_up d w h, List.mem_cons] at hc
      rcases hc with hc | hc
      · exact ⟨i, by rw [hc, h]⟩
      · exact htr c hc

/-- The calls of one polling loop are queries of its member and sleeps. -/
theorem pollLoop_calls (sleep : σ → σ) (d : Supervisable σ) (i fuel : Nat) (w : σ) :
    ∀ c ∈ (pollLoop sleep d i fuel w).1, c = Call.Sleep ∨ ∃ a, c = Call.Active Rel.Deps i a := by
  induction fuel generalizing w with
  | zero => simp [pollLoop]
  | succ n ih =>
    intro c hc
    by_cases h : (d.Active w).1 = Active
    · simp only [pollLoop, isUp_of_up d w h, List.mem_singleton] at hc
      exact Or.inr ⟨_, hc⟩
    · simp only [pollLoop, isUp_of_down d w h, List.mem_cons] at hc
      rcases hc with hc | hc | hc
      · exact Or.inr ⟨_, hc⟩
      · exact Or.inl hc
      · exact ih _ c hc

/-- A polling loop that returns made its last query last, and that query
reported `Active`. -/
theorem pollLoop_some (sleep : σ → σ) (d : Supervisable σ) (i fuel : Nat) (w w1 : σ)
    (hret : (pollLoop sleep d i fuel w).2 = some w1) :
    ∃ pre v, (pollLoop sleep d i fuel w).1 = pre ++ [Call.Active Rel.Deps i Active]
      ∧ (d.Active v).1 = Active ∧ w1 = (d.Active v).2 := by
  induction fuel generalizing w with
  | zero => simp [pollLoop] at hret
  | succ n ih =>
    by_cases h : (d.Active w).1 = Active
    · simp only [pollLoop, isUp_of_up d w h, Option.some.injEq] at hret
      refine ⟨[], w, ?_, h, hret.symm⟩
      simp only [pollLoop, isUp_of_up d w h, h, List.nil_append]
    · simp only [pollLoop, isUp_of_down d w h] at hret
      obtain ⟨pre, v, htr, hv, hw⟩ := ih _ hret
      refine ⟨Call.Active Rel.Deps i (d.Active w).1 :: Call.Sleep :: pre, v, ?_, hv, hw⟩
      simp only [pollLoop, isUp_of_down d w h, htr, List.cons_append]

/-- A member that never reports `Active` is polled without end. -/
theorem pollLoop_never (sleep : σ → σ) (d : Supervisable σ) (i fuel : Nat) (w : σ)
    (hdown : ∀ v, (d.Active v).1 ≠ Active) : (pollLoop sleep d i fuel w).2 = none := by
  induction fuel generalizing w with
  | zero => rfl
  | succ n ih =>
    simp only [pollLoop, isUp_of_down d w (hdown w)]
    exact ih _

/-- The calls of the third loop are sleeps and queries of the members it
ranges over. -/
theorem waitLoop_calls (sleep : σ → σ) (fuel : Nat) (deps : List (Supervisable σ)) (i : Nat)
    (w : σ) :
    ∀ c ∈ (waitLoop sleep fuel deps i w).1,
      c = Call.Sleep ∨ ∃ j a, i ≤ j ∧ j < i + deps.length ∧ c = Call.Active Rel.Deps j a := by
  induction deps generalizing i w with
  | nil => simp [waitLoop]
  | cons d rest ih =>
    intro c hc
    have hpoll := pollLoop_calls sleep d i fuel w
    simp only [waitLoop] at hc
    cases hp : (pollLoop sleep d i fuel w).2 with
    | none =>
      rw [andThen_none _ _ hp] at hc
      rcases hpoll c hc with h | ⟨a, h⟩
      · exact Or.inl h
      · exact Or.inr ⟨i, a, le_refl _, by simp, h⟩
    | some w1 =>
      rw [andThen_some _ _ w1 hp, List.mem_append] at hc
      rcases hc with hc | hc
      · rcases hpoll c hc with h | ⟨a, h⟩
        · exact Or.inl h
        · exact Or.inr ⟨i, a, le_refl _, by simp, h⟩
      · rcases ih (i + 1) w1 c hc with h | ⟨j, a, h1, h2, h3⟩
        · exact Or.inl h
        · exact Or.inr ⟨j, a, by omega, by simp only [List.length_cons]; omega, h3⟩

/-- With every member reporting `Active` and fuel for one query each, the
third loop returns having made only queries. -/
theorem waitLoop_all_up (sleep : σ → σ) (fuel : Nat) (deps : List (Supervisable σ)) (i : Nat)
    (w : σ) (hfuel : 0 < fuel) (hup : ∀ d ∈ deps, ∀ v, (d.Active v).1 = Active) :
    ∃ w1, (waitLoop sleep fuel deps i w).2 = some w1
      ∧ ∀ c ∈ (waitLoop sleep fuel deps i w).1, ∃ j, c = Call.Active Rel.Deps j Active := by
  obtain ⟨n, rfl⟩ : ∃ n, fuel = n + 1 := ⟨fuel - 1, by omega⟩
  induction deps generalizing i w with
  | nil => exact ⟨w, rfl, by simp [waitLoop]⟩
  | cons d rest ih =>
    have h := hup d (List.mem_cons_self _ _) w
    obtain ⟨w1, hret, htr⟩ := ih (i + 1) (d.Active w).2
      (fun e he => hup e (List.mem_cons_of_mem _ he))
    have hp : pollLoop sleep d i (n + 1) w
        = ([Call.Active Rel.Deps i Active], some (d.Active w).2) := by
      simp only [pollLoop, isUp_of_up d w h, h]
    refine ⟨w1, ?_, ?_⟩
    · simp only [waitLoop, hp]
      rw [andThen_some _ _ _ rfl]
      exact hret
    · intro c hc
      simp only [waitLoop, hp] at hc
      rw [andThen_some _ _ _ rfl] at hc
      simp only [List.singleton_append, List.mem_cons] at hc
      rcases hc with hc | hc
      · exact ⟨i, hc⟩
      · exact htr c hc

/-- The third loop does not return when one of its members never reports
`Active`. -/
theorem waitLoop_never (sleep : σ → σ) (fuel : Nat) (deps : List (Supervisable σ)) (i : Nat)
    (w : σ) (d : Supervisable σ) (hd : d ∈ deps) (hdown : ∀ v, (d.Active v).1 ≠ Active) :
    (waitLoop sleep fuel deps i w).2 = none := by
  induction deps generalizing i w with
  | nil => simp at hd
  | cons e rest ih =>
    simp only [waitLoop]
    cases hp : (pollLoop sleep e i fuel w).2 with
    | none => rw [andThen_none _ _ hp]; exact hp
    | some w1 =>
      rw [andThen_some _ _ w1 hp]
      rcases List.mem_cons.mp hd with rfl | hmem
      · rw [pollLoop_never sleep d i fuel w hdown] at hp
        cases hp
      · exact ih (i + 1) w1 hmem

/-- A run of `Start`, split into its three loops. -/
theorem Start_decompose (sleep : σ → σ) (fuel : Nat) (u : Unit σ) (w : σ) :
    ∃ tc w1, conflictLoop u.Conflicts 0 w = (tc, some w1)
      ∧ (∀ c ∈ tc, ∃ i a, c = Call.Active Rel.Conflicts i a)
      ∧ Unit.Start sleep fuel u w
          = (tc ++ ((startLoop u.Deps 0 w1).andThen (waitLoop sleep fuel u.Deps 0)).1,
             ((startLoop u.Deps 0 w1).andThen (waitLoop sleep fuel u.Deps 0)).2) := by
  obtain ⟨as, w1, _, hrun⟩ := conflictLoop_shape u.Conflicts 0 w
  refine ⟨_, w1, hrun, ?_, ?_⟩
  · intro c hc
    obtain ⟨p, _, hp⟩ := List.mem_map.mp hc
    exact ⟨p.1, p.2, hp.symm⟩
  · simp only [Unit.Start, hrun]
    rw [andThen_some _ _ w1 rfl]

/-- In a third loop that returns, the last query of each member reported
`Active`. -/
theorem waitLoop_last_poll (sleep : σ → σ) (fuel : Nat) (deps : List (Supervisable σ))
    (i : Nat) (w w1 : σ) (hret : (waitLoop sleep fuel deps i w).2 = some w1) :
    ∀ j, j < deps.length → ∃ pre post,
      (waitLoop sleep fuel deps i w).1 = pre ++ Call.Active Rel.Deps (i + j) Active :: post
      ∧ ∀ a, Call.Active Rel.Deps (i + j) a ∉ post := by
  induction deps generalizing i w with
  | nil => intro j hj; simp at hj
  | cons d rest ih =>
    intro j hj
    simp only [waitLoop] at hret ⊢
    cases hp : (pollLoop sleep d i fuel w).2 with
    | none => rw [andThen_none _ _ hp, hp] at hret; cases hret
    | some w2 =>
      rw [andThen_some _ _ w2 hp] at hret ⊢
      simp only at hret ⊢
      obtain ⟨pre, _, hpre, _, _⟩ := pollLoop_some sleep d i fuel w w2 hp
      cases j with
      | zero =>
        refine ⟨pre, (waitLoop sleep fuel rest (i + 1) w2).1, ?_, ?_⟩
        · rw [hpre]; simp
        · intro a hmem
          rcases waitLoop_calls sleep fuel rest (i + 1) w2 _ hmem with h | ⟨k, b, hk, _, h⟩
          · cases h
          · injection h with _ hik _
            omega
      | succ k =>
        obtain ⟨pre2, post2, htr, hpost⟩ := ih (i + 1) w2 hret k (by simpa using hj)
        refine ⟨(pollLoop sleep d i fuel w).1 ++ pre2, post2, ?_, ?_⟩
        · rw [htr]
          simp [Nat.add_assoc, Nat.add_comm 1 k]
        · intro a
          have := hpost a
          rwa [Nat.add_assoc, Nat.add_comm 1 k] at this

/-- A member that reported `Active` and is stable still reports `Active`
after a polling loop on a member of `all`. -/
theorem pollLoop_preserves (sleep : σ → σ) (all : List (Supervisable σ))
    (d0 e : Supervisable σ) (hst : StableUp sleep all d0) (he : e ∈ all) (i fuel : Nat)
    (w w1 : σ) (hup : (d0.Active w).1 = Active)
    (hret : (pollLoop sleep e i fuel w).2 = some w1) : (d0.Active w1).1 = Active := by
  induction fuel generalizing w with
  | zero => simp [pollLoop] at hret
  | succ n ih =>
    have hq : (d0.Active (e.Active w).2).1 = Active := (hst w hup).2 e he
    by_cases h : (e.Active w).1 = Active
    · simp only [pollLoop, isUp_of_up e w h, Option.some.injEq] at hret
      rw [← hret]
      exact hq
    · simp only [pollLoop, isUp_of_down e w h] at hret
      exact ih _ (hst _ hq).1 hret

/-- The same through a whole third loop over members of `all`. -/
theorem waitLoop_preserves (sleep : σ → σ) (all : List (Supervisable σ))
    (d0 : Supervisable σ) (hst : StableUp sleep all d0) (fuel : Nat)
    (deps : List (Supervisable σ)) (hsub : ∀ e ∈ deps, e ∈ all) (i : Nat) (w w1 : σ)
    (hup : (d0.Active w).1 = Active)
    (hret : (waitLoop sleep fuel deps i w).2 = some w1) : (d0.Active w1).1 = Active := by
  induction deps generalizing i w with
  | nil =>
    simp only [waitLoop, Option.some.injEq] at hret
    rw [← hret]
    exact hup
  | cons e rest ih =>
    simp only [waitLoop] at hret
    cases hp : (pollLoop sleep e i fuel w).2 with
    | none => rw [andThen_none _ _ hp, hp] at hret; cases hret
    | some w2 =>
      rw [andThen_some _ _ w2 hp] at hret
      exact ih (fun x hx => hsub x (List.mem_cons_of_mem _ hx)) (i + 1) w2
        (pollLoop_preserves sleep all d0 e hst (hsub e (List.mem_cons_self _ _)) i fuel w w2
          hup hp) hret

/-- When reporting `Active` is stable, every member reports `Active` in the
state a third loop returns in. -/
theorem waitLoop_all_up_at_end (sleep : σ → σ) (all : List (Supervisable σ))
    (hst : ∀ d ∈ all, StableUp sleep all d) (fuel : Nat) (deps : List (Supervisable σ))
    (hsub : ∀ e ∈ deps, e ∈ all) (i : Nat) (w w1 : σ)
    (hret : (waitLoop sleep fuel deps i w).2 = some w1) :
    ∀ d ∈ deps, (d.Active w1).1 = Active := by
  induction deps generalizing i w with
  | nil => intro d hd; simp at hd
  | cons e rest ih =>
    have hrest : ∀ x ∈ rest, x ∈ all := fun x hx => hsub x (List.mem_cons_of_mem _ hx)
    have he : e ∈ all := hsub e (List.mem_cons_self _ _)
    simp only [waitLoop] at hret
    cases hp : (pollLoop sleep e i fuel w).2 with
    | none => rw [andThen_none _ _ hp, hp] at hret; cases hret
    | some w2 =>
      rw [andThen_some _ _ w2 hp] at hret
      obtain ⟨_, v, _, hv, hw2⟩ := pollLoop_some sleep e i fuel w w2 hp
      have hup2 : (e.Active w2).1 = Active := by
        rw [hw2]
        exact (hst e he v hv).2 e he
      intro d hd
      rcases List.mem_cons.mp hd with rfl | hmem
      · exact waitLoop_preserves sleep all d (hst d he) fuel rest hrest (i + 1) w2 w1 hup2 hret
      · exact ih hrest (i + 1) w2 hret d hmem

end start_lemmas

/-- C1, as stated, fails: with a conflicting unit that reports `Active`,
`Start` goes on to query the dependency, calls its `Start()`, polls it and
returns normally; the unit does not report `Failed`. -/
theorem Start_proceeds_despite_conflict :
    ((constant Active).Active 0).1 = Active
    ∧ Unit.Start tick 3 conflictedUnit 0
        = ([Call.Active Rel.Conflicts 0 Active,
            Call.Active Rel.Deps 0 Inactive, Call.Start Rel.Deps 0,
            Call.Active Rel.Deps 0 Inactive, Call.Sleep,
            Call.Active Rel.Deps 0 Active], some 1)
    ∧ conflictedUnit.Active ≠ Failed := by
  refine ⟨rfl, ?_, ?_⟩ <;> decide

/-- C1, amended: for every unit, whatever the members of `Conflicts` report,
`Start` makes one `Active()` query per member of `Conflicts`, in list order,
and then carries on exactly as the same unit without `Conflicts` would from the
state reached; in particular the first member of `Deps`, if any, is queried. -/
theorem Start_conflicts_only_queried {σ : Type} (sleep : σ → σ) (fuel : Nat) (u : Unit σ)
    (w : σ) :
    ∃ as w1, as.length = u.Conflicts.length
      ∧ conflictLoop u.Conflicts 0 w
          = ((List.enumFrom 0 as).map fun p => Call.Active Rel.Conflicts p.1 p.2, some w1)
      ∧ Unit.Start sleep fuel u w
          = (((List.enumFrom 0 as).map fun p => Call.Active Rel.Conflicts p.1 p.2)
              ++ (Unit.Start sleep fuel { u with Conflicts := [] } w1).1,
             (Unit.Start sleep fuel { u with Conflicts := [] } w1).2)
      ∧ ∀ d rest, u.Deps = d :: rest →
          Call.Active Rel.Deps 0 (d.Active w1).1 ∈ (Unit.Start sleep fuel u w).1 := by
  obtain ⟨as, w1, hlen, hrun⟩ := conflictLoop_shape u.Conflicts 0 w
  have hstart : Unit.Start sleep fuel u w
      = (((List.enumFrom 0 as).map fun p => Call.Active Rel.Conflicts p.1 p.2)
          ++ (Unit.Start sleep fuel { u with Conflicts := [] } w1).1,
         (Unit.Start sleep fuel { u with Conflicts := [] } w1).2) := by
    simp only [Unit.Start, hrun, conflictLoop]
    rw [andThen_some _ _ w1 rfl, andThen_some ([], some w1) _ w1 rfl]
    simp
  refine ⟨as, w1, hlen, hrun, hstart, ?_⟩
  intro d rest hd
  rw [hstart]
  apply List.mem_append_right
  simp only [Unit.Start, conflictLoop, hd]
  rw [andThen_some ([], some w1) _ w1 rfl]
  simp only [List.nil_append]
  have hfirst : ∃ t o, startLoop (d :: rest) 0 w1
      = (Call.Active Rel.Deps 0 (d.Active w1).1 :: t, o) := by
    simp only [startLoop]
    split
    · exact ⟨_, _, rfl⟩
    · split
      · exact ⟨_, _, rfl⟩
      · exact ⟨_, _, rfl⟩
  obtain ⟨t, o, ht⟩ := hfirst
  rw [ht]
  unfold Run.andThen
  split <;> simp

/-- C2, as stated, fails: a unit reports `Active`, and its `Start` still
calls `Start()` on a dependency that is not `Active`. -/
theorem Start_not_idempotent :
    dependentUnit.Active = Active
    ∧ Unit.Start tick 3 dependentUnit 0
        = ([Call.Active Rel.Deps 0 Inactive, Call.Start Rel.Deps 0,
            Call.Active Rel.Deps 0 Inactive, Call.Sleep,
            Call.Active Rel.Deps 0 Active], some 1) := by
  refine ⟨rfl, ?_⟩
  decide

/-- C2, amended: for every unit, `Start` does not depend on the unit's own
state, only on its `Conflicts` and `Deps`: any unit with the same two lists
makes the same run.  And for every unit all of whose `Deps` report `Active`
whenever queried, `Start` returns having called `Start()` on nothing and
without sleeping. -/
theorem Start_all_up {σ : Type} (sleep : σ → σ) (fuel : Nat) (u : Unit σ) (w : σ) :
    (∀ u2 : Unit σ, u2.Deps = u.Deps → u2.Conflicts = u.Conflicts →
        Unit.Start sleep fuel u2 w = Unit.Start sleep fuel u w)
    ∧ (0 < fuel → (∀ d ∈ u.Deps, ∀ v, (d.Active v).1 = Active) →
        (∃ w1, (Unit.Start sleep fuel u w).2 = some w1)
        ∧ (∀ c ∈ (Unit.Start sleep fuel u w).1,
            c ≠ Call.Sleep ∧ ∀ l i, c ≠ Call.Start l i)) := by
  constructor
  · intro u2 h1 h2
    simp only [Unit.Start, h1, h2]
  · intro hfuel hup
    obtain ⟨tc, w1, _, htc, hstart⟩ := Start_decompose sleep fuel u w
    obtain ⟨w2, hs, hstr⟩ := startLoop_all_up u.Deps 0 w1 hup
    obtain ⟨w3, hw, hwtr⟩ := waitLoop_all_up sleep fuel u.Deps 0 w2 hfuel hup
    rw [andThen_some _ _ w2 hs] at hstart
    refine ⟨⟨w3, by rw [hstart]; exact hw⟩, ?_⟩
    intro c hc
    rw [hstart] at hc
    simp only [List.mem_append] at hc
    rcases hc with hc | hc | hc
    · obtain ⟨i, a, rfl⟩ := htc c hc
      exact ⟨by simp, by simp⟩
    · obtain ⟨j, rfl⟩ := hstr c hc
      exact ⟨by simp, by simp⟩
    · obtain ⟨j, rfl⟩ := hwtr c hc
      exact ⟨by simp, by simp⟩

/-- The amended C2: its first part at the unit whose dependency is not yet
`Active`, its second part at a unit whose only dependency always reports
`Active`. -/
theorem Start_all_up_witness :
    (∀ u2 : Unit Nat, u2.Deps = dependentUnit.Deps → u2.Conflicts = dependentUnit.Conflicts →
        Unit.Start tick 3 u2 0 = Unit.Start tick 3 dependentUnit 0)
    ∧ 0 < 1
    ∧ (∀ d ∈ settledUnit.Deps, ∀ v, (d.Active v).1 = Active)
    ∧ ((∃ w1, (Unit.Start tick 1 settledUnit 0).2 = some w1)
      ∧ (∀ c ∈ (Unit.Start tick 1 settledUnit 0).1,
          c ≠ Call.Sleep ∧ ∀ l i, c ≠ Call.Start l i)) :=
  have h : ∀ d ∈ settledUnit.Deps, ∀ v, (d.Active v).1 = Active := by
    intro d hd v
    have hd1 : d = constant Active := by simpa [settledUnit] using hd
    rw [hd1]
    rfl
  ⟨(Start_all_up tick 3 dependentUnit 0).1, by decide, h,
    (Start_all_up tick 1 settledUnit 0).2 (by decide) h⟩

/-- C3: in every run of `Start` that returns, the last `Active()` query of each
member of `Deps` reported `Active`; hence, when reporting `Active` is stable
for the members of `Deps`, each of them reports `Active` in the state `Start`
returns in. -/
theorem Start_returns_with_deps_up {σ : Type} (sleep : σ → σ) (fuel : Nat) (u : Unit σ)
    (w w1 : σ) (hret : (Unit.Start sleep fuel u w).2 = some w1) :
    (∀ i, i < u.Deps.length → ∃ pre post,
        (Unit.Start sleep fuel u w).1 = pre ++ Call.Active Rel.Deps i Active :: post
        ∧ ∀ a, Call.Active Rel.Deps i a ∉ post)
    ∧ ((∀ d ∈ u.Deps, StableUp sleep u.Deps d) → ∀ d ∈ u.Deps, (d.Active w1).1 = Active) := by
  obtain ⟨tc, w2, _, _, hstart⟩ := Start_decompose sleep fuel u w
  cases hs : (startLoop u.Deps 0 w2).2 with
  | none =>
    rw [andThen_none _ _ hs] at hstart
    rw [hstart] at hret
    simp only [hs] at hret
    cases hret
  | some w3 =>
    rw [andThen_some _ _ w3 hs] at hstart
    have hw : (waitLoop sleep fuel u.Deps 0 w3).2 = some w1 := by
      rw [hstart] at hret
      exact hret
    refine ⟨?_, ?_⟩
    · intro i hi
      obtain ⟨pre, post, htr, hpost⟩ := waitLoop_last_poll sleep fuel u.Deps 0 w3 w1 hw i hi
      refine ⟨tc ++ (startLoop u.Deps 0 w2).1 ++ pre, post, ?_, ?_⟩
      · rw [hstart, htr]
        simp
      · simpa using hpost
    · intro hst
      exact waitLoop_all_up_at_end sleep u.Deps hst fuel u.Deps (fun _ h => h) 0 w3 w1 hw

/-- Reporting `Active` is stable for the dependency of `dependentUnit`. -/
theorem dependentUnit_stable : ∀ d ∈ dependentUnit.Deps, StableUp tick dependentUnit.Deps d := by
  intro d hd
  have hd1 : d = upAfter Inactive 1 := by
    simpa [dependentUnit] using hd
  subst hd1
  intro v hv
  have hv1 : ¬ v < 1 := by
    intro hlt
    simp only [upAfter, scripted, if_pos hlt] at hv
    exact absurd hv (by decide)
  refine ⟨?_, ?_⟩
  · have : ¬ tick v < 1 := by simp only [tick]; omega
    simp only [upAfter, scripted, if_neg this]
  · intro e he
    have he1 : e = upAfter Inactive 1 := by
      simpa [dependentUnit] using he
    subst he1
    simp only [upAfter, scripted, if_neg hv1]

/-- C3 at a unit whose dependency comes up during the first sleep. -/
theorem Start_returns_with_deps_up_witness :
    (Unit.Start tick 3 dependentUnit 0).2 = some 1
    ∧ (∀ d ∈ dependentUnit.Deps, StableUp tick dependentUnit.Deps d)
    ∧ ((∀ i, i < dependentUnit.Deps.length → ∃ pre post,
          (Unit.Start tick 3 dependentUnit 0).1 = pre ++ Call.Active Rel.Deps i Active :: post
          ∧ ∀ a, Call.Active Rel.Deps i a ∉ post)
      ∧ ((∀ d ∈ dependentUnit.Deps, StableUp tick dependentUnit.Deps d) →
          ∀ d ∈ dependentUnit.Deps, (d.Active 1).1 = Active)) :=
  ⟨by decide, dependentUnit_stable,
    Start_returns_with_deps_up tick 3 dependentUnit 0 1 (by decide)⟩

/-- C7, as stated, fails: a dependency that reports `Activating` when `Start`
examines it has its `Start()` called. -/
theorem Start_retriggers_Activating :
    ((upAfter Activating 1).Active 0).1 = Activating
    ∧ Unit.Start tick 3 eagerUnit 0
        = ([Call.Active Rel.Deps 0 Activating, Call.Start Rel.Deps 0,
            Call.Active Rel.Deps 0 Activating, Call.Sleep,
            Call.Active Rel.Deps 0 Active], some 1) := by
  refine ⟨rfl, ?_⟩
  decide

/-- C7, amended: the calls of `Start` are the conflict queries, then, member
after member of `Deps`, one query followed by `Start()` exactly when the query
did not report `Active`, then the queries and sleeps of the readiness wait.
So `Start()` is called on member `i` if and only if member `i` was examined
and reported a state other than `Active`: not for `Active`, but for
`Inactive`, `Activating` and `Failed` alike. -/
theorem Start_triggers_unless_Active {σ : Type} (sleep : σ → σ) (fuel : Nat) (u : Unit σ)
    (w : σ) :
    ∃ tc as tw,
      (Unit.Start sleep fuel u w).1 = tc ++ (List.enumFrom 0 as).flatMap triggerBlock ++ tw
      ∧ as.length ≤ u.Deps.length
      ∧ ((Unit.Start sleep fuel u w).2 ≠ none → as.length = u.Deps.length)
      ∧ (∀ c ∈ tc, ∃ i a, c = Call.Active Rel.Conflicts i a)
      ∧ (∀ c ∈ tw, c = Call.Sleep ∨ ∃ j a, c = Call.Active Rel.Deps j a)
      ∧ (∀ i, Call.Start Rel.Deps i ∈ (Unit.Start sleep fuel u w).1
          ↔ ∃ a, as[i]? = some a ∧ a ≠ Active) := by
  obtain ⟨tc, w1, _, htc, hstart⟩ := Start_decompose sleep fuel u w
  obtain ⟨as, hle, hfull, hshape⟩ := startLoop_shape u.Deps 0 w1
  have hblock : ∀ i, Call.Start Rel.Deps i ∈ (List.enumFrom 0 as).flatMap triggerBlock
      ↔ ∃ a, as[i]? = some a ∧ a ≠ Active := by
    intro i
    simp only [List.mem_flatMap, Prod.exists, List.mk_mem_enumFrom_iff_le_and_getElem?_sub,
      Nat.zero_le, true_and, Nat.sub_zero]
    constructor
    · rintro ⟨j, a, hja, hmem⟩
      by_cases ha : a = Active
      · simp [triggerBlock, ha] at hmem
      · simp only [triggerBlock, if_neg ha, List.mem_cons, List.mem_singleton,
          Call.Start.injEq, true_and, List.not_mem_nil, or_false] at hmem
        rcases hmem with hmem | hmem
        · cases hmem
        · exact ⟨a, by rw [hmem]; exact hja, ha⟩
    · rintro ⟨a, hia, ha⟩
      exact ⟨i, a, hia, by simp [triggerBlock, ha]⟩
  have hgen : ∀ tw : List Call,
      (∀ c ∈ tw, c = Call.Sleep ∨ ∃ j a, c = Call.Active Rel.Deps j a) →
      ∀ i, Call.Start Rel.Deps i ∈ tc ++ (List.enumFrom 0 as).flatMap triggerBlock ++ tw
        ↔ ∃ a, as[i]? = some a ∧ a ≠ Active := by
    intro tw htw i
    rw [← hblock i]
    simp only [List.mem_append]
    constructor
    · rintro ((h | h) | h)
      · obtain ⟨_, _, h2⟩ := htc _ h
        cases h2
      · exact h
      · rcases htw _ h with h2 | ⟨_, _, h2⟩ <;> cases h2
    · intro h
      exact Or.inl (Or.inr h)
  cases hs : (startLoop u.Deps 0 w1).2 with
  | none =>
    rw [andThen_none _ _ hs] at hstart
    have htr : (Unit.Start sleep fuel u w).1
        = tc ++ (List.enumFrom 0 as).flatMap triggerBlock ++ [] := by
      rw [hstart, hshape]
      simp
    refine ⟨tc, as, [], htr, hle, ?_, htc, by simp, ?_⟩
    · intro hret
      rw [hstart] at hret
      exact absurd hs hret
    · intro i
      rw [htr]
      exact hgen [] (by simp) i
  | some w2 =>
    rw [andThen_some _ _ w2 hs] at hstart
    have htw : ∀ c ∈ (waitLoop sleep fuel u.Deps 0 w2).1,
        c = Call.Sleep ∨ ∃ j a, c = Call.Active Rel.Deps j a := by
      intro c hc
      rcases waitLoop_calls sleep fuel u.Deps 0 w2 c hc with h | ⟨j, a, _, _, h⟩
      · exact Or.inl h
      · exact Or.inr ⟨j, a, h⟩
    have htr : (Unit.Start sleep fuel u w).1
        = tc ++ (List.enumFrom 0 as).flatMap triggerBlock
            ++ (waitLoop sleep fuel u.Deps 0 w2).1 := by
      rw [hstart, hshape]
      simp
    refine ⟨tc, as, _, htr, hle, ?_, htc, htw, ?_⟩
    · intro _
      exact hfull (by rw [hs]; simp)
    · intro i
      rw [htr]
      exact hgen _ htw i

/-- The polling loop on a member that reports `Failed` for ever uses up its
fuel. -/
theorem doomedUnit_poll (fuel t : Nat) :
    pollLoop tick (constant Failed) 0 fuel t
      = ((List.replicate fuel [Call.Active Rel.Deps 0 Failed, Call.Sleep]).flatten, none) := by
  induction fuel generalizing t with
  | zero => rfl
  | succ n ih =>
    have hdown : ((constant Failed).Active t).1 ≠ Active := by
      show Failed ≠ Active
      decide
    simp only [pollLoop, isUp_of_down _ _ hdown, List.replicate_succ, List.flatten_cons, ih]
    rfl

/-- The run of `Start` on `doomedUnit`, whatever the fuel. -/
theorem doomedUnit_run (fuel : Nat) :
    Unit.Start tick fuel doomedUnit 0
      = ([Call.Active Rel.Deps 0 Failed, Call.Start Rel.Deps 0]
          ++ (List.replicate fuel [Call.Active Rel.Deps 0 Failed, Call.Sleep]).flatten,
         none) := by
  have hdown : ((constant Failed).Active 0).1 ≠ Active := by
    show Failed ≠ Active
    decide
  have hs : startLoop doomedUnit.Deps 0 0
      = ([Call.Active Rel.Deps 0 Failed, Call.Start Rel.Deps 0], some 0) := by
    simp only [doomedUnit, startLoop, isUp_of_down _ _ hdown]
    rfl
  have hw : waitLoop tick fuel doomedUnit.Deps 0 0
      = ((List.replicate fuel [Call.Active Rel.Deps 0 Failed, Call.Sleep]).flatten, none) := by
    simp only [doomedUnit, waitLoop, doomedUnit_poll]
    rw [andThen_none _ _ rfl]
  have hc : conflictLoop doomedUnit.Conflicts 0 0 = ([], some 0) := rfl
  simp only [Unit.Start, hc]
  rw [andThen_some _ _ 0 rfl, andThen_some _ _ 0 (by rw [hs]), hs, hw]
  rfl

/-- C8, as stated, fails: with a dependency that has been triggered and
reports `Failed` for ever, `Start` keeps polling; allowed four polls it makes
all four and has not returned, and no number of polls makes it return. -/
theorem Start_waits_for_ever_on_Failed :
    ((constant Failed).Active 0).1 = Failed
    ∧ Unit.Start tick 4 doomedUnit 0
        = ([Call.Active Rel.Deps 0 Failed, Call.Start Rel.Deps 0,
            Call.Active Rel.Deps 0 Failed, Call.Sleep,
            Call.Active Rel.Deps 0 Failed, Call.Sleep,
            Call.Active Rel.Deps 0 Failed, Call.Sleep,
            Call.Active Rel.Deps 0 Failed, Call.Sleep], none)
    ∧ ¬ ∃ fuel w1, (Unit.Start tick fuel doomedUnit 0).2 = some w1 := by
  refine ⟨rfl, by decide, ?_⟩
  rintro ⟨fuel, w1, h⟩
  rw [doomedUnit_run] at h
  cases h

/-- A polling loop that does not return has used all its fuel: its calls are
`fuel` queries that did not report `Active`, each followed by a sleep. -/
theorem pollLoop_exhaust {σ : Type} (sleep : σ → σ) (d : Supervisable σ) (j fuel : Nat)
    (w : σ) (hnone : (pollLoop sleep d j fuel w).2 = none) :
    ∃ as : List ActivationState, as.length = fuel ∧ (∀ a ∈ as, a ≠ Active)
      ∧ (pollLoop sleep d j fuel w).1
          = as.flatMap fun a => [Call.Active Rel.Deps j a, Call.Sleep] := by
  induction fuel generalizing w with
  | zero => exact ⟨[], rfl, by simp, rfl⟩
  | succ n ih =>
    by_cases h : (d.Active w).1 = Active
    · simp [pollLoop, isUp_of_up d w h] at hnone
    · simp only [pollLoop, isUp_of_down d w h] at hnone
      obtain ⟨as, hlen, hdown, htr⟩ := ih _ hnone
      refine ⟨(d.Active w).1 :: as, by simp [hlen], ?_, ?_⟩
      · intro a ha
        rcases List.mem_cons.mp ha with rfl | ha
        · exact h
        · exact hdown a ha
      · simp only [pollLoop, isUp_of_down d w h, htr, List.flatMap_cons, List.cons_append,
          List.nil_append]

/-- A third loop that does not return ends polling one of its members until
the fuel is used up. -/
theorem waitLoop_exhaust {σ : Type} (sleep : σ → σ) (fuel : Nat) (ds : List (Supervisable σ))
    (i : Nat) (w : σ) (hnone : (waitLoop sleep fuel ds i w).2 = none) :
    ∃ pre j, ∃ as : List ActivationState, i ≤ j ∧ j < i + ds.length ∧ as.length = fuel
      ∧ (∀ a ∈ as, a ≠ Active)
      ∧ (waitLoop sleep fuel ds i w).1
          = pre ++ as.flatMap fun a => [Call.Active Rel.Deps j a, Call.Sleep] := by
  induction ds generalizing i w with
  | nil => simp [waitLoop] at hnone
  | cons d rest ih =>
    simp only [waitLoop] at hnone ⊢
    cases hp : (pollLoop sleep d i fuel w).2 with
    | none =>
      obtain ⟨as, hlen, hdown, htr⟩ := pollLoop_exhaust sleep d i fuel w hp
      refine ⟨[], i, as, le_refl _, by simp, hlen, hdown, ?_⟩
      rw [andThen_none _ _ hp, htr]
      rfl
    | some w2 =>
      rw [andThen_some _ _ w2 hp] at hnone ⊢
      obtain ⟨pre, j, as, h1, h2, hlen, hdown, htr⟩ := ih (i + 1) w2 hnone
      refine ⟨(pollLoop sleep d i fuel w).1 ++ pre, j, as, by omega,
        by simp only [List.length_cons]; omega, hlen, hdown, ?_⟩
      simp only [htr, List.append_assoc]

/-- A second loop that does not return ends at the `Start()` of a member that
does not return. -/
theorem startLoop_stuck {σ : Type} (ds : List (Supervisable σ)) (i : Nat) (w : σ)
    (hnone : (startLoop ds i w).2 = none) :
    ∃ pre j e v, i ≤ j ∧ ds[j - i]? = some e ∧ e.Start v = none
      ∧ (startLoop ds i w).1 = pre ++ [Call.Start Rel.Deps j] := by
  induction ds generalizing i w with
  | nil => simp [startLoop] at hnone
  | cons d rest ih =>
    have hidx : ∀ j, i + 1 ≤ j → (d :: rest)[j - i]? = rest[j - (i + 1)]? := by
      intro j hj
      have : j - i = (j - (i + 1)) + 1 := by omega
      rw [this, List.getElem?_cons_succ]
    by_cases h : (d.Active w).1 = Active
    · simp only [startLoop, isUp_of_up d w h] at hnone ⊢
      obtain ⟨pre, j, e, v, h1, h2, h3, htr⟩ := ih (i + 1) _ hnone
      refine ⟨Call.Active Rel.Deps i (d.Active w).1 :: pre, j, e, v, by omega, ?_, h3, ?_⟩
      · rw [hidx j h1]
        exact h2
      · rw [htr]
        rfl
    · cases hs : d.Start (d.Active w).2 with
      | none =>
        refine ⟨[Call.Active Rel.Deps i (d.Active w).1], i, d, (d.Active w).2, le_refl _,
          by simp, hs, ?_⟩
        simp only [startLoop, isUp_of_down d w h, hs]
        rfl
      | some w2 =>
        simp only [startLoop, isUp_of_down d w h, hs] at hnone ⊢
        obtain ⟨pre, j, e, v, h1, h2, h3, htr⟩ := ih (i + 1) _ hnone
        refine ⟨Call.Active Rel.Deps i (d.Active w).1 :: Call.Start Rel.Deps i :: pre, j, e, v,
          by omega, ?_, h3, ?_⟩
        · rw [hidx j h1]
          exact h2
        · rw [htr]
          rfl

/-- C8, amended: the readiness wait has no bound and does not detect failure.
For every unit with a member of `Deps` that never reports `Active` (one that
reports `Failed` on every poll, for instance), `Start` does not return,
whatever the number of polls allowed; and its run ends in one of two ways:
at the `Start()` of a dependency that itself does not return, or polling one
member of `Deps` for as long as polls are allowed, every poll reporting a state
other than `Active` and followed by a sleep. -/
theorem Start_never_returns {σ : Type} (sleep : σ → σ) (u : Unit σ) (w : σ)
    (d : Supervisable σ) (hd : d ∈ u.Deps) (hdown : ∀ v, (d.Active v).1 ≠ Active) :
    ∀ fuel, (Unit.Start sleep fuel u w).2 = none
      ∧ ((∃ pre j e v, u.Deps[j]? = some e ∧ e.Start v = none
            ∧ (Unit.Start sleep fuel u w).1 = pre ++ [Call.Start Rel.Deps j])
        ∨ (∃ pre j, ∃ as : List ActivationState, j < u.Deps.length ∧ as.length = fuel
            ∧ (∀ a ∈ as, a ≠ Active)
            ∧ (Unit.Start sleep fuel u w).1
                = pre ++ as.flatMap fun a => [Call.Active Rel.Deps j a, Call.Sleep])) := by
  intro fuel
  obtain ⟨tc, w1, _, _, hstart⟩ := Start_decompose sleep fuel u w
  rw [hstart]
  cases hs : (startLoop u.Deps 0 w1).2 with
  | none =>
    rw [andThen_none _ _ hs]
    refine ⟨hs, Or.inl ?_⟩
    obtain ⟨pre, j, e, v, _, h2, h3, htr⟩ := startLoop_stuck u.Deps 0 w1 hs
    exact ⟨tc ++ pre, j, e, v, by simpa using h2, h3, by simp only [htr, List.append_assoc]⟩
  | some w2 =>
    rw [andThen_some _ _ w2 hs]
    have hw := waitLoop_never sleep fuel u.Deps 0 w2 d hd hdown
    refine ⟨hw, Or.inr ?_⟩
    obtain ⟨pre, j, as, _, h2, hlen, hdn, htr⟩ := waitLoop_exhaust sleep fuel u.Deps 0 w2 hw
    exact ⟨tc ++ ((startLoop u.Deps 0 w1).1 ++ pre), j, as, by omega, hlen, hdn,
      by simp only [htr, List.append_assoc]⟩

/-- The amended C8 at a unit whose dependency reports `Failed` for ever. -/
theorem Start_never_returns_witness :
    constant Failed ∈ doomedUnit.Deps
    ∧ (∀ v, ((constant Failed).Active v).1 ≠ Active)
    ∧ ∀ fuel, (Unit.Start tick fuel doomedUnit 0).2 = none
      ∧ ((∃ pre j e v, doomedUnit.Deps[j]? = some e ∧ e.Start v = none
            ∧ (Unit.Start tick fuel doomedUnit 0).1 = pre ++ [Call.Start Rel.Deps j])
        ∨ (∃ pre j, ∃ as : List ActivationState, j < doomedUnit.Deps.length
            ∧ as.length = fuel ∧ (∀ a ∈ as, a ≠ Active)
            ∧ (Unit.Start tick fuel doomedUnit 0).1
                = pre ++ as.flatMap fun a => [Call.Active Rel.Deps j a, Call.Sleep])) :=
  have h1 : constant Failed ∈ doomedUnit.Deps := List.mem_singleton.mpr rfl
  have h2 : ∀ v, ((constant Failed).Active v).1 ≠ Active := fun _ => by
    show Failed ≠ Active
    decide
  ⟨h1, h2, Start_never_returns tick doomedUnit 0 (constant Failed) h1 h2⟩

/-! ## Theorems: status assembly and the stubs -/

/-- C14: `Unit.Status()` is assembled from the accessors; after `SetPath(p)`
and `SetLoaded(s)` it shows path `p` and load state `s`; its vendor-preset
enable state equals its enable state; and the package function `Status`
applied to the unit returns the same value and leaves the state alone. -/
theorem Status_assembled {σ : Type} (sleep : σ → σ) (fuel : Nat) (u : Unit σ) (w : σ)
    (p : String) (s : LoadState) :
    u.Status = ⟨⟨u.Loaded, u.Path, u.Enabled, ⟨u.Enabled⟩⟩, ⟨u.Active, u.Sub⟩⟩
    ∧ ((u.SetPath p).SetLoaded s).Status.Load.Path = p
    ∧ ((u.SetPath p).SetLoaded s).Status.Load.Status = s
    ∧ ((u.SetLoaded s).SetPath p).Status.Load.Path = p
    ∧ ((u.SetLoaded s).SetPath p).Status.Load.Status = s
    ∧ u.Status.Load.Vendor.State = u.Status.Load.State
    ∧ Status (Unit.toSupervisable sleep fuel) (u, w) = (u.Status, (u, w)) :=
  ⟨rfl, rfl, rfl, rfl, rfl, rfl, rfl⟩

/-- C11: `Enabled()`, `Active()` and `Sub()` are constant functions of the
unit: on every unit, and so on every unit reachable from `New()` by `SetPath`,
`SetLoaded`, `Log` and `Start`, they return `Enabled`, `Active` and
`"unavailable"`. -/
theorem stubs_constant {σ : Type} (sleep : σ → σ) (fuel : Nat) :
    (∀ u : Unit σ, Unit.Reachable sleep fuel u →
        u.Enabled = Enabled ∧ u.Active = Active ∧ u.Sub = "unavailable")
    ∧ (∀ u : Unit σ, u.Enabled = Enabled ∧ u.Active = Active ∧ u.Sub = "unavailable")
    ∧ (∀ u v : Unit σ, u.Enabled = v.Enabled ∧ u.Active = v.Active ∧ u.Sub = v.Sub)
    ∧ Unit.Reachable sleep fuel (((New σ).SetPath "a").SetLoaded Error) :=
  ⟨fun _ _ => ⟨rfl, rfl, rfl⟩, fun _ => ⟨rfl, rfl, rfl⟩, fun _ _ => ⟨rfl, rfl, rfl⟩,
    Unit.Reachable.setLoaded _ _ (Unit.Reachable.setPath _ _ Unit.Reachable.new)⟩

/-! ## Theorems: the shape of a log chunk -/

/-- On a `*Unit` with nothing unread `ReadLog` returns `(nil, nil)`. -/
theorem ReadLog_Unit_empty {σ : Type} (sleep : σ → σ) (fuel : Nat) (s : Unit σ × σ)
    (h : s.1.Buffer.unread = []) :
    (ReadLog (Unit.toSupervisable sleep fuel) s).1 = (none, none) := by
  simp only [ReadLog, Unit.toSupervisable, Unit.Read, Buffer.Read, if_pos h]
  simp

/-- The chunk made of the first `n` of `k ≥ n` unread bytes in front of the
rest of the zeroed slice. -/
theorem chunk_shape (bs : List Nat) (n : Nat) (hn : n ≤ bs.length) (hm : n ≤ 1000) :
    (bs.take n ++ (make 1000).drop n).length = 1000
    ∧ (bs.take n ++ (make 1000).drop n).take n = bs.take n
    ∧ (bs.take n ++ (make 1000).drop n).drop n = List.replicate (1000 - n) 0 := by
  have hlen : (bs.take n).length = n := by
    simp [List.length_take, hn]
  refine ⟨?_, ?_, ?_⟩
  · simp only [List.length_append, hlen, List.length_drop, make_length]
    omega
  · exact List.take_left' hlen
  · rw [List.drop_left' hlen]
    simp only [make, List.drop_replicate]

/-- C16: whenever `ReadLog` on a unit returns a chunk, the error is nil, the
chunk has length 1000 whatever the number `n = min(1000, k)` of bytes read, with
`1 ≤ n ≤ 1000`; its first `n` bytes are the first `n` unread bytes of the buffer
and the other `1000 - n` are zero.  The result does not tell `n`: when fewer
than 1000 bytes were unread, a buffer holding one more unread byte, a zero,
gives the same result.  For any reader at all, which can overwrite the slice
but not resize it, the chunk has length 1000. -/
theorem ReadLog_chunk_shape {σ : Type} (sleep : σ → σ) (fuel : Nat) (s : Unit σ × σ)
    (chunk : List Nat)
    (h : (ReadLog (Unit.toSupervisable sleep fuel) s).1.1 = some chunk) :
    (ReadLog (Unit.toSupervisable sleep fuel) s).1.2 = none
    ∧ 1 ≤ min 1000 s.1.Buffer.unread.length
    ∧ min 1000 s.1.Buffer.unread.length ≤ 1000
    ∧ chunk.length = 1000
    ∧ chunk.take (min 1000 s.1.Buffer.unread.length)
        = s.1.Buffer.unread.take (min 1000 s.1.Buffer.unread.length)
    ∧ chunk.drop (min 1000 s.1.Buffer.unread.length)
        = List.replicate (1000 - min 1000 s.1.Buffer.unread.length) 0
    ∧ (s.1.Buffer.unread.length < 1000 →
        (ReadLog (Unit.toSupervisable sleep fuel)
          ({ s.1 with Buffer := ⟨s.1.Buffer.unread ++ [0]⟩ }, s.2)).1 = (some chunk, none))
    ∧ (∀ (τ : Type) (v : Supervisable τ) (t : τ) (read : List Nat → τ → ReadResult × τ),
        v.Read = some read → (∀ p x, (read p x).1.p.length = p.length) →
        ∀ c, (ReadLog v t).1.1 = some c → c.length = 1000) := by
  have hne : s.1.Buffer.unread ≠ [] := by
    intro hnil
    rw [ReadLog_Unit_empty sleep fuel s hnil] at h
    cases h
  have hpos : 0 < s.1.Buffer.unread.length := List.length_pos.mpr hne
  have hrun := ReadLog_Unit_chunk sleep fuel s hne
  have hchunk : chunk = s.1.Buffer.unread.take (min 1000 s.1.Buffer.unread.length)
      ++ (make 1000).drop (min 1000 s.1.Buffer.unread.length) := by
    rw [hrun] at h
    exact (Option.some.inj h).symm
  obtain ⟨h1, h2, h3⟩ := chunk_shape s.1.Buffer.unread (min 1000 s.1.Buffer.unread.length)
    (Nat.min_le_right _ _) (Nat.min_le_left _ _)
  refine ⟨by rw [hrun], by omega, Nat.min_le_left _ _, by rw [hchunk]; exact h1,
    by rw [hchunk]; exact h2, by rw [hchunk]; exact h3, ?_, ?_⟩
  · intro hk
    have hne2 : s.1.Buffer.unread ++ [0] ≠ [] := by simp
    rw [ReadLog_Unit_chunk sleep fuel ({ s.1 with Buffer := ⟨s.1.Buffer.unread ++ [0]⟩ }, s.2)
      hne2, hchunk]
    have e1 : min 1000 s.1.Buffer.unread.length = s.1.Buffer.unread.length := by omega
    have e2 : min 1000 (s.1.Buffer.unread ++ [0]).length = s.1.Buffer.unread.length + 1 := by
      simp only [List.length_append, List.length_singleton]
      omega
    have e3 : 1000 - s.1.Buffer.unread.length = (1000 - (s.1.Buffer.unread.length + 1)) + 1 := by
      omega
    simp only [e1, e2, List.take_length, make, List.drop_replicate]
    rw [List.take_of_length_le (by simp), e3, List.replicate_succ]
    simp
  · intro τ v t read hread hlen c hc
    have hp : (ReadLog v t).1.1 = some c → c = (read (make 1000) t).1.p := by
      simp only [ReadLog, hread]
      split_ifs
      · intro h2; cases h2
      · intro h2; exact (Option.some.inj h2).symm
      · intro h2; cases h2
    rw [hp hc, hlen, make_length]

/-- C16 at the unit that has logged three bytes. -/
theorem ReadLog_chunk_shape_witness :
    (ReadLog (Unit.toSupervisable tick 1) (loggedUnit, 0)).1.1
        = some ([104, 105, 10] ++ (make 1000).drop 3)
    ∧ ([104, 105, 10] ++ (make 1000).drop 3).length = 1000
    ∧ ([104, 105, 10] ++ (make 1000).drop 3).take (min 1000 loggedUnit.Buffer.unread.length)
        = loggedUnit.Buffer.unread.take (min 1000 loggedUnit.Buffer.unread.length) :=
  have h : (ReadLog (Unit.toSupervisable tick 1) (loggedUnit, 0)).1.1
      = some ([104, 105, 10] ++ (make 1000).drop 3) := by
    have hu : loggedUnit.Buffer.unread = [104, 105, 10] := rfl
    rw [ReadLog_Unit_chunk tick 1 (loggedUnit, 0) (by rw [hu]; exact List.cons_ne_nil _ _)]
    simp [hu]
  ⟨h, (ReadLog_chunk_shape tick 1 (loggedUnit, 0) _ h).2.2.2.1,
    (ReadLog_chunk_shape tick 1 (loggedUnit, 0) _ h).2.2.2.2.1⟩

/-! ## Theorems: the order of the calls of `Start` -/

section order_lemmas
variable {σ : Type}

/-- The calls of `Start`, phase by phase: the conflict queries, the trigger
blocks of the members of `Deps` examined, the queries and sleeps of the
readiness wait. -/
theorem Start_phases (sleep : σ → σ) (fuel : Nat) (u : Unit σ) (w : σ) :
    ∃ tc as tw,
      (Unit.Start sleep fuel u w).1 = tc ++ (List.enumFrom 0 as).flatMap triggerBlock ++ tw
      ∧ as.length ≤ u.Deps.length
      ∧ (∀ c ∈ tc, ∃ i a, c = Call.Active Rel.Conflicts i a)
      ∧ (∀ c ∈ tw, c = Call.Sleep ∨ ∃ j a, c = Call.Active Rel.Deps j a) := by
  obtain ⟨tc, w1, _, htc, hstart⟩ := Start_decompose sleep fuel u w
  obtain ⟨as, hle, _, hshape⟩ := startLoop_shape u.Deps 0 w1
  cases hs : (startLoop u.Deps 0 w1).2 with
  | none =>
    rw [andThen_none _ _ hs] at hstart
    refine ⟨tc, as, [], ?_, hle, htc, by simp⟩
    rw [hstart, hshape]
    simp
  | some w2 =>
    rw [andThen_some _ _ w2 hs] at hstart
    refine ⟨tc, as, (waitLoop sleep fuel u.Deps 0 w2).1, ?_, hle, htc, ?_⟩
    · rw [hstart, hshape]
      simp
    · intro c hc
      rcases waitLoop_calls sleep fuel u.Deps 0 w2 c hc with h | ⟨j, a, _, _, h⟩
      · exact Or.inl h
      · exact Or.inr ⟨j, a, h⟩

/-- The calls of the trigger blocks are queries and starts of members of
`Deps`. -/
theorem triggerBlock_calls (as : List ActivationState) (n : Nat) :
    ∀ c ∈ (List.enumFrom n as).flatMap triggerBlock,
      ∃ i, (∃ a, c = Call.Active Rel.Deps i a) ∨ c = Call.Start Rel.Deps i := by
  intro c hc
  obtain ⟨p, _, hp⟩ := List.mem_flatMap.mp hc
  unfold triggerBlock at hp
  split_ifs at hp
  · simp only [List.mem_singleton] at hp
    exact ⟨p.1, Or.inl ⟨p.2, hp⟩⟩
  · simp only [List.mem_cons, List.mem_singleton, List.not_mem_nil, or_false] at hp
    rcases hp with hp | hp
    · exact ⟨p.1, Or.inl ⟨p.2, hp⟩⟩
    · exact ⟨p.1, Or.inr hp⟩

/-- The positions started by the trigger blocks, in call order, increase
strictly. -/
theorem triggerBlock_startIndex (as : List ActivationState) (n : Nat) :
    (((List.enumFrom n as).flatMap triggerBlock).filterMap startIndex).Pairwise (· < ·)
    ∧ ∀ j ∈ ((List.enumFrom n as).flatMap triggerBlock).filterMap startIndex, n ≤ j := by
  induction as generalizing n with
  | nil => simp
  | cons a rest ih =>
    obtain ⟨hpw, hge⟩ := ih (n + 1)
    by_cases ha : a = Active
    · have hb : (triggerBlock (n, a)).filterMap startIndex = [] := by
        simp [triggerBlock, ha, startIndex]
      simp only [List.enumFrom_cons, List.flatMap_cons, List.filterMap_append, hb,
        List.nil_append]
      exact ⟨hpw, fun j hj => Nat.le_of_succ_le (hge j hj)⟩
    · have hb : (triggerBlock (n, a)).filterMap startIndex = [n] := by
        simp [triggerBlock, ha, startIndex]
      simp only [List.enumFrom_cons, List.flatMap_cons, List.filterMap_append, hb,
        List.singleton_append]
      refine ⟨List.pairwise_cons.mpr ⟨fun j hj => hge j hj, hpw⟩, ?_⟩
      intro j hj
      rcases List.mem_cons.mp hj with h | h
      · exact Nat.le_of_eq h.symm
      · exact Nat.le_of_succ_le (hge j h)

/-- A call of a list `A ++ B` that cannot be in `B` lies in `A`. -/
theorem split_in_prefix {α : Type} (A B pre post : List α) (x : α)
    (h : A ++ B = pre ++ x :: post) (hx : x ∉ B) :
    ∃ rest, A = pre ++ x :: rest ∧ post = rest ++ B := by
  induction pre generalizing A with
  | nil =>
    cases A with
    | nil =>
      simp only [List.nil_append] at h
      exact absurd (by rw [h]; exact List.mem_cons_self _ _) hx
    | cons a A1 =>
      simp only [List.cons_append, List.nil_append, List.cons.injEq] at h
      exact ⟨A1, by rw [h.1]; rfl, h.2.symm⟩
  | cons p pre1 ih =>
    cases A with
    | nil =>
      simp only [List.nil_append] at h
      exact absurd (by rw [h]; simp) hx
    | cons a A1 =>
      simp only [List.cons_append, List.cons.injEq] at h
      obtain ⟨rest, h1, h2⟩ := ih A1 h.2
      exact ⟨rest, by rw [h.1, h1]; rfl, h2⟩

end order_lemmas

/-- C12: the calls of one `Start` fall into three consecutive phases: the
`Active()` queries of the members of `Conflicts`; then the queries and
`Start()` calls on members of `Deps`; then the readiness polls and sleeps.  So
every conflict query has only conflict queries before it, every `Start()` is
on a member of `Deps`, lies in the second phase and so precedes every call of
the readiness wait, with no sleep before it; and the positions started, in call
order, increase strictly: list order, at most once per position. -/
theorem Start_phase_order {σ : Type} (sleep : σ → σ) (fuel : Nat) (u : Unit σ) (w : σ) :
    ∃ tc ts tw,
      (Unit.Start sleep fuel u w).1 = tc ++ ts ++ tw
      ∧ (∀ c ∈ tc, ∃ i a, c = Call.Active Rel.Conflicts i a)
      ∧ (∀ c ∈ ts, ∃ i, (∃ a, c = Call.Active Rel.Deps i a) ∨ c = Call.Start Rel.Deps i)
      ∧ (∀ c ∈ tw, c = Call.Sleep ∨ ∃ i a, c = Call.Active Rel.Deps i a)
      ∧ (∀ pre post i a,
          (Unit.Start sleep fuel u w).1 = pre ++ Call.Active Rel.Conflicts i a :: post →
          ∃ rest, tc = pre ++ Call.Active Rel.Conflicts i a :: rest
            ∧ post = rest ++ (ts ++ tw))
      ∧ (∀ pre post l i,
          (Unit.Start sleep fuel u w).1 = pre ++ Call.Start l i :: post →
          l = Rel.Deps ∧ Call.Sleep ∉ pre
            ∧ ∃ rest, tc ++ ts = pre ++ Call.Start l i :: rest ∧ post = rest ++ tw)
      ∧ ((Unit.Start sleep fuel u w).1.filterMap startIndex).Pairwise (· < ·) := by
  obtain ⟨tc, as, tw, htr, _, htc, htw⟩ := Start_phases sleep fuel u w
  have hts := triggerBlock_calls as 0
  have hnoSleep : ∀ c ∈ tc ++ (List.enumFrom 0 as).flatMap triggerBlock, c ≠ Call.Sleep := by
    intro c hc
    rcases List.mem_append.mp hc with h | h
    · obtain ⟨_, _, rfl⟩ := htc c h
      simp
    · obtain ⟨_, h1 | h1⟩ := hts c h
      · obtain ⟨_, rfl⟩ := h1
        simp
      · rw [h1]
        simp
  refine ⟨tc, (List.enumFrom 0 as).flatMap triggerBlock, tw, htr, htc, hts, htw, ?_, ?_, ?_⟩
  · intro pre post i a hsplit
    rw [htr, List.append_assoc] at hsplit
    refine split_in_prefix tc _ pre post _ hsplit ?_
    intro hmem
    rcases List.mem_append.mp hmem with h | h
    · obtain ⟨_, h1 | h1⟩ := hts _ h
      · obtain ⟨_, h2⟩ := h1
        cases h2
      · cases h1
    · rcases htw _ h with h1 | ⟨_, _, h1⟩ <;> cases h1
  · intro pre post l i hsplit
    rw [htr] at hsplit
    have hx : Call.Start l i ∉ tw := by
      intro h
      rcases htw _ h with h1 | ⟨_, _, h1⟩ <;> cases h1
    obtain ⟨rest, h1, h2⟩ := split_in_prefix _ tw pre post _ hsplit hx
    have hin : Call.Start l i ∈ tc ++ (List.enumFrom 0 as).flatMap triggerBlock := by
      rw [h1]
      simp
    refine ⟨?_, ?_, rest, h1, h2⟩
    · rcases List.mem_append.mp hin with h | h
      · obtain ⟨_, _, h3⟩ := htc _ h
        cases h3
      · obtain ⟨_, h3 | h3⟩ := hts _ h
        · obtain ⟨_, h4⟩ := h3
          cases h4
        · injection h3
    · intro hs
      exact hnoSleep Call.Sleep (by rw [h1]; simp [hs]) rfl
  · have h1 : tc.filterMap startIndex = [] := by
      rw [List.filterMap_eq_nil_iff]
      intro c hc
      obtain ⟨_, _, rfl⟩ := htc c hc
      rfl
    have h2 : tw.filterMap startIndex = [] := by
      rw [List.filterMap_eq_nil_iff]
      intro c hc
      rcases htw c hc with rfl | ⟨_, _, rfl⟩ <;> rfl
    rw [htr, List.filterMap_append, List.filterMap_append, h1, h2, List.nil_append,
      List.append_nil]
    exact (triggerBlock_startIndex as 0).1

/-! ## Theorems: the enable state plays no part -/

section enabled_lemmas
variable {σ : Type}

theorem isUp_congr (d e : Supervisable σ) (h : SameButEnabled d e) : isUp d = isUp e := by
  funext w
  simp only [isUp, h.2.1]

theorem conflictLoop_congr (cs cs2 : List (Supervisable σ))
    (h : List.Forall₂ SameButEnabled cs cs2) (i : Nat) (w : σ) :
    conflictLoop cs i w = conflictLoop cs2 i w := by
  induction h generalizing i w with
  | nil => rfl
  | cons hd _ ih =>
    simp only [conflictLoop, isUp_congr _ _ hd, hd.2.1, ih]

theorem startLoop_congr (ds ds2 : List (Supervisable σ))
    (h : List.Forall₂ SameButEnabled ds ds2) (i : Nat) (w : σ) :
    startLoop ds i w = startLoop ds2 i w := by
  induction h generalizing i w with
  | nil => rfl
  | cons hd _ ih =>
    simp only [startLoop, isUp_congr _ _ hd, hd.2.1, hd.1, ih]

theorem pollLoop_congr (sleep : σ → σ) (d e : Supervisable σ) (h : SameButEnabled d e)
    (i fuel : Nat) (w : σ) : pollLoop sleep d i fuel w = pollLoop sleep e i fuel w := by
  induction fuel generalizing w with
  | zero => rfl
  | succ n ih =>
    simp only [pollLoop, isUp_congr _ _ h, h.2.1, ih]

theorem waitLoop_congr (sleep : σ → σ) (fuel : Nat) (ds ds2 : List (Supervisable σ))
    (h : List.Forall₂ SameButEnabled ds ds2) (i : Nat) (w : σ) :
    waitLoop sleep fuel ds i w = waitLoop sleep fuel ds2 i w := by
  induction h generalizing i w with
  | nil => rfl
  | cons hd _ ih =>
    simp only [waitLoop, pollLoop_congr sleep _ _ hd]
    congr 1
    funext w1
    exact ih (i + 1) w1

/-- The calls of the first part of a sequence are calls of the sequence. -/
theorem andThen_mem (r : Run σ) (f : σ → Run σ) (c : Call) (h : c ∈ r.1) :
    c ∈ (r.andThen f).1 := by
  unfold Run.andThen
  split
  · exact h
  · exact List.mem_append_left _ h

end enabled_lemmas

/-- Sequencing after a run that begins with a call. -/
theorem andThen_cons {σ : Type} (c : Call) (r : Run σ) (f : σ → Run σ) :
    Run.andThen (c :: r.1, r.2) f = (c :: (r.andThen f).1, (r.andThen f).2) := by
  unfold Run.andThen
  cases h : r.2 <;> simp [h]

/-- The second loop over a list in two parts is the loop over the first part
followed, if that returns, by the loop over the second part. -/
theorem startLoop_append {σ : Type} (l1 l2 : List (Supervisable σ)) (i : Nat) (w : σ) :
    startLoop (l1 ++ l2) i w
      = (startLoop l1 i w).andThen (startLoop l2 (i + l1.length)) := by
  induction l1 generalizing i w with
  | nil =>
    simp only [List.nil_append, startLoop, List.length_nil, Nat.add_zero]
    rw [andThen_some _ _ w rfl]
    rfl
  | cons d rest ih =>
    have hidx : i + 1 + rest.length = i + (d :: rest).length := by
      simp only [List.length_cons]
      omega
    by_cases h : (d.Active w).1 = Active
    · simp only [List.cons_append, startLoop, isUp_of_up d w h, List.append_eq]
      rw [ih (i + 1) _, hidx, andThen_cons]
    · cases hs : d.Start (d.Active w).2 with
      | none =>
        simp only [List.cons_append, startLoop, isUp_of_down d w h, hs]
        rw [andThen_none _ _ rfl]
      | some w2 =>
        simp only [List.cons_append, startLoop, isUp_of_down d w h, hs, List.append_eq]
        rw [ih (i + 1) _, hidx]
        unfold Run.andThen
        cases hr : (startLoop rest (i + 1) w2).2 <;> simp [hr]

/-- C13: two units whose `Deps` and `Conflicts` agree member by member except
in what `Enabled()` does make the same run of `Start`: the same calls in the
same order and the same outcome.  And a dependency at any position that does
not report `Active` when it is examined, that is in the state reached after the
conflict queries and the trigger loop over the members before it, is started,
whatever its `Enabled()` reports. -/
theorem Start_ignores_Enabled {σ : Type} (sleep : σ → σ) (fuel : Nat) (u v : Unit σ) (w : σ)
    (hD : List.Forall₂ SameButEnabled u.Deps v.Deps)
    (hC : List.Forall₂ SameButEnabled u.Conflicts v.Conflicts) :
    Unit.Start sleep fuel u w = Unit.Start sleep fuel v w
    ∧ (∀ pre d post w1 w2, u.Deps = pre ++ d :: post →
        (conflictLoop u.Conflicts 0 w).2 = some w1 → (startLoop pre 0 w1).2 = some w2 →
        (d.Active w2).1 ≠ Active →
        Call.Start Rel.Deps pre.length ∈ (Unit.Start sleep fuel u w).1
        ∧ Call.Start Rel.Deps pre.length ∈ (Unit.Start sleep fuel v w).1) := by
  have heq : Unit.Start sleep fuel u w = Unit.Start sleep fuel v w := by
    simp only [Unit.Start, conflictLoop_congr _ _ hC]
    congr 1
    funext w1
    rw [startLoop_congr _ _ hD]
    congr 1
    funext w2
    exact waitLoop_congr sleep fuel _ _ hD 0 w2
  refine ⟨heq, ?_⟩
  intro pre d post w1 w2 hdeps hconf hpre hdown
  have hmem : Call.Start Rel.Deps pre.length ∈ (Unit.Start sleep fuel u w).1 := by
    simp only [Unit.Start]
    rw [andThen_some _ _ w1 hconf]
    apply List.mem_append_right
    apply andThen_mem
    rw [hdeps, startLoop_append, andThen_some _ _ w2 hpre]
    apply List.mem_append_right
    simp only [Nat.zero_add, startLoop, isUp_of_down d w2 hdown]
    split <;> simp
  exact ⟨hmem, heq ▸ hmem⟩

/-- C13 at a unit whose second dependency is disabled and not yet `Active`:
the run is that of the same unit with the dependency enabled, and the
dependency, at position 1, is started. -/
theorem Start_ignores_Enabled_witness :
    List.Forall₂ SameButEnabled lateDisabledUnit.Deps lateEnabledUnit.Deps
    ∧ List.Forall₂ SameButEnabled lateDisabledUnit.Conflicts lateEnabledUnit.Conflicts
    ∧ ((withEnabled (upAfter Inactive 1) Disabled).Enabled 0).1 = Disabled
    ∧ ((withEnabled (upAfter Inactive 1) Disabled).Active 0).1 = Inactive
    ∧ ((upAfter Inactive 1).Enabled 0).1 = Enabled
    ∧ Unit.Start tick 3 lateDisabledUnit 0 = Unit.Start tick 3 lateEnabledUnit 0
    ∧ Call.Start Rel.Deps 1 ∈ (Unit.Start tick 3 lateDisabledUnit 0).1
    ∧ Unit.Start tick 3 lateDisabledUnit 0
        = ([Call.Active Rel.Deps 0 Active,
            Call.Active Rel.Deps 1 Inactive, Call.Start Rel.Deps 1,
            Call.Active Rel.Deps 0 Active,
            Call.Active Rel.Deps 1 Inactive, Call.Sleep,
            Call.Active Rel.Deps 1 Active], some 1) :=
  have hD : List.Forall₂ SameButEnabled lateDisabledUnit.Deps lateEnabledUnit.Deps :=
    List.Forall₂.cons ⟨rfl, rfl, rfl, rfl⟩
      (List.Forall₂.cons ⟨rfl, rfl, rfl, rfl⟩ List.Forall₂.nil)
  have hC : List.Forall₂ SameButEnabled lateDisabledUnit.Conflicts lateEnabledUnit.Conflicts :=
    List.Forall₂.nil
  ⟨hD, hC, rfl, rfl, rfl,
    (Start_ignores_Enabled tick 3 lateDisabledUnit lateEnabledUnit 0 hD hC).1,
    ((Start_ignores_Enabled tick 3 lateDisabledUnit lateEnabledUnit 0 hD hC).2
      [constant Active] (withEnabled (upAfter Inactive 1) Disabled) [] 0 0 rfl rfl rfl
      (by decide)).1,
    by decide⟩

/-! ## Theorems: starting a unit whose relationships are concrete units -/

section concrete_lemmas
variable {τ : Type}

/-- A concrete unit reports `Active` and its query changes nothing. -/
theorem IsConcrete.Active_eq {ρ : Type} {d : Supervisable τ} (h : IsConcrete ρ d) (v : τ) :
    d.Active v = (Active, v) := by
  obtain ⟨get, start, rfl⟩ := h
  rfl

theorem toSupervisable_concrete {σ : Type} (sleep : σ → σ) (fuel : Nat) :
    IsConcrete σ (Unit.toSupervisable sleep fuel) :=
  ⟨Prod.fst, fun s => (Unit.Start sleep fuel s.1 s.2).2.map fun w => (s.1, w), rfl⟩

theorem conflictLoop_const (cs : List (Supervisable τ)) (i : Nat) (w : τ)
    (h : ∀ d ∈ cs, ∀ v, d.Active v = (Active, v)) :
    conflictLoop cs i w
      = ((List.range' i cs.length).map fun j => Call.Active Rel.Conflicts j Active, some w) := by
  induction cs generalizing i with
  | nil => rfl
  | cons d rest ih =>
    have hd := h d (List.mem_cons_self _ _) w
    have hup : isUp d w = (true, w) := by simp [isUp, hd]
    simp only [conflictLoop, hup, hd, ih (i + 1) (fun e he => h e (List.mem_cons_of_mem _ he)),
      List.length_cons, List.range'_succ, List.map_cons]

theorem startLoop_const (ds : List (Supervisable τ)) (i : Nat) (w : τ)
    (h : ∀ d ∈ ds, ∀ v, d.Active v = (Active, v)) :
    startLoop ds i w
      = ((List.range' i ds.length).map fun j => Call.Active Rel.Deps j Active, some w) := by
  induction ds generalizing i with
  | nil => rfl
  | cons d rest ih =>
    have hd := h d (List.mem_cons_self _ _) w
    have hup : isUp d w = (true, w) := by simp [isUp, hd]
    simp only [startLoop, hup, hd, ih (i + 1) (fun e he => h e (List.mem_cons_of_mem _ he)),
      List.length_cons, List.range'_succ, List.map_cons]

theorem waitLoop_const (sleep : τ → τ) (fuel : Nat) (ds : List (Supervisable τ)) (i : Nat)
    (w : τ) (hfuel : 0 < fuel) (h : ∀ d ∈ ds, ∀ v, d.Active v = (Active, v)) :
    waitLoop sleep fuel ds i w
      = ((List.range' i ds.length).map fun j => Call.Active Rel.Deps j Active, some w) := by
  obtain ⟨n, rfl⟩ : ∃ n, fuel = n + 1 := ⟨fuel - 1, by omega⟩
  induction ds generalizing i with
  | nil => rfl
  | cons d rest ih =>
    have hd := h d (List.mem_cons_self _ _) w
    have hup : isUp d w = (true, w) := by simp [isUp, hd]
    have hp : pollLoop sleep d i (n + 1) w = ([Call.Active Rel.Deps i Active], some w) := by
      simp only [pollLoop, hup, hd]
    simp only [waitLoop, hp]
    rw [andThen_some _ _ w rfl, ih (i + 1) (fun e he => h e (List.mem_cons_of_mem _ he))]
    simp only [List.length_cons, List.range'_succ, List.map_cons, List.singleton_append]

end concrete_lemmas

/-- C15: when every member of `Deps` and `Conflicts` is a concrete unit,
whatever its load state and whatever its own `Start` would do, `Start` returns
in the state it began in, having made one query per member of `Conflicts`, one
per member of `Deps` in the trigger loop and one per member of `Deps` in the
readiness loop, in list order: no `Start()` call and no sleep. -/
theorem Start_concrete {τ : Type} (ρ : Type) (sleep : τ → τ) (fuel : Nat) (u : Unit τ) (w : τ)
    (hfuel : 0 < fuel) (hD : ∀ d ∈ u.Deps, IsConcrete ρ d)
    (hC : ∀ d ∈ u.Conflicts, IsConcrete ρ d) :
    Unit.Start sleep fuel u w
      = (((List.range' 0 u.Conflicts.length).map fun j => Call.Active Rel.Conflicts j Active)
          ++ (((List.range' 0 u.Deps.length).map fun j => Call.Active Rel.Deps j Active)
          ++ ((List.range' 0 u.Deps.length).map fun j => Call.Active Rel.Deps j Active)),
         some w)
    ∧ (∀ c ∈ (Unit.Start sleep fuel u w).1, c ≠ Call.Sleep ∧ ∀ l i, c ≠ Call.Start l i)
    ∧ (Unit.Start sleep fuel u w).1.length = u.Conflicts.length + 2 * u.Deps.length := by
  have hrun : Unit.Start sleep fuel u w
      = (((List.range' 0 u.Conflicts.length).map fun j => Call.Active Rel.Conflicts j Active)
          ++ (((List.range' 0 u.Deps.length).map fun j => Call.Active Rel.Deps j Active)
          ++ ((List.range' 0 u.Deps.length).map fun j => Call.Active Rel.Deps j Active)),
         some w) := by
    simp only [Unit.Start]
    rw [conflictLoop_const _ _ _ (fun d hd v => (hC d hd).Active_eq v),
      andThen_some _ _ w rfl,
      startLoop_const _ _ _ (fun d hd v => (hD d hd).Active_eq v),
      andThen_some _ _ w rfl,
      waitLoop_const sleep fuel _ _ _ hfuel (fun d hd v => (hD d hd).Active_eq v)]
  refine ⟨hrun, ?_, ?_⟩
  · intro c hc
    rw [hrun] at hc
    simp only [List.mem_append, List.mem_map] at hc
    rcases hc with ⟨_, _, rfl⟩ | ⟨_, _, rfl⟩ | ⟨_, _, rfl⟩ <;> exact ⟨by simp, by simp⟩
  · rw [hrun]
    simp only [List.length_append, List.length_map, List.length_range']
    omega

/-- C15 at a unit whose dependency and conflict are a concrete unit in load
state `Error` whose own `Start` would not return. -/
theorem Start_concrete_witness :
    0 < 1
    ∧ (∀ d ∈ peeredUnit.Deps, IsConcrete Nat d)
    ∧ (∀ d ∈ peeredUnit.Conflicts, IsConcrete Nat d)
    ∧ (Unit.toSupervisable tick 1).Start (brokenPeer, 0) = none
    ∧ brokenPeer.Loaded = Error
    ∧ (Unit.Start (Prod.map id tick) 1 peeredUnit (brokenPeer, 0)
        = (((List.range' 0 peeredUnit.Conflicts.length).map
              fun j => Call.Active Rel.Conflicts j Active)
            ++ (((List.range' 0 peeredUnit.Deps.length).map
              fun j => Call.Active Rel.Deps j Active)
            ++ ((List.range' 0 peeredUnit.Deps.length).map
              fun j => Call.Active Rel.Deps j Active)),
           some (brokenPeer, 0))
      ∧ (∀ c ∈ (Unit.Start (Prod.map id tick) 1 peeredUnit (brokenPeer, 0)).1,
          c ≠ Call.Sleep ∧ ∀ l i, c ≠ Call.Start l i)
      ∧ (Unit.Start (Prod.map id tick) 1 peeredUnit (brokenPeer, 0)).1.length
          = peeredUnit.Conflicts.length + 2 * peeredUnit.Deps.length) :=
  have hD : ∀ d ∈ peeredUnit.Deps, IsConcrete Nat d := by
    intro d hd
    have : d = Unit.toSupervisable tick 1 := by simpa [peeredUnit] using hd
    rw [this]
    exact toSupervisable_concrete tick 1
  have hC : ∀ d ∈ peeredUnit.Conflicts, IsConcrete Nat d := by
    intro d hd
    have : d = Unit.toSupervisable tick 1 := by simpa [peeredUnit] using hd
    rw [this]
    exact toSupervisable_concrete tick 1
  ⟨by decide, hD, hC, rfl, rfl,
    Start_concrete Nat (Prod.map id tick) 1 peeredUnit (brokenPeer, 0) (by decide) hD hC⟩

/-! ## Theorems: what `Start` leaves alone -/

section frame_lemmas
variable {σ α : Type}

theorem conflictLoop_view (view : σ → α) (cs : List (Supervisable σ)) (i : Nat) (w w1 : σ)
    (h : ∀ d ∈ cs, ∀ v, view (d.Active v).2 = view v)
    (hret : (conflictLoop cs i w).2 = some w1) : view w1 = view w := by
  induction cs generalizing i w with
  | nil =>
    simp only [conflictLoop, Option.some.injEq] at hret
    rw [← hret]
  | cons d rest ih =>
    simp only [conflictLoop] at hret
    rw [ih (i + 1) _ (fun e he => h e (List.mem_cons_of_mem _ he)) hret, isUp_snd]
    exact h d (List.mem_cons_self _ _) w

theorem startLoop_view (view : σ → α) (ds : List (Supervisable σ)) (i : Nat) (w w1 : σ)
    (h : ∀ d ∈ ds, (∀ v, view (d.Active v).2 = view v)
      ∧ ∀ v v1, d.Start v = some v1 → view v1 = view v)
    (hret : (startLoop ds i w).2 = some w1) : view w1 = view w := by
  induction ds generalizing i w with
  | nil =>
    simp only [startLoop, Option.some.injEq] at hret
    rw [← hret]
  | cons d rest ih =>
    have hd := h d (List.mem_cons_self _ _)
    have hrest := fun e he => h e (List.mem_cons_of_mem _ he)
    by_cases hup : (d.Active w).1 = Active
    · simp only [startLoop, isUp_of_up d w hup] at hret
      rw [ih (i + 1) _ hrest hret]
      exact hd.1 w
    · cases hs : d.Start (d.Active w).2 with
      | none => simp [startLoop, isUp_of_down d w hup, hs] at hret
      | some w2 =>
        simp only [startLoop, isUp_of_down d w hup, hs] at hret
        rw [ih (i + 1) _ hrest hret, hd.2 _ _ hs]
        exact hd.1 w

theorem pollLoop_view (view : σ → α) (sleep : σ → σ) (d : Supervisable σ) (i fuel : Nat)
    (w w1 : σ) (hsleep : ∀ v, view (sleep v) = view v)
    (h : ∀ v, view (d.Active v).2 = view v)
    (hret : (pollLoop sleep d i fuel w).2 = some w1) : view w1 = view w := by
  induction fuel generalizing w with
  | zero => simp [pollLoop] at hret
  | succ n ih =>
    by_cases hup : (d.Active w).1 = Active
    · simp only [pollLoop, isUp_of_up d w hup, Option.some.injEq] at hret
      rw [← hret]
      exact h w
    · simp only [pollLoop, isUp_of_down d w hup] at hret
      rw [ih _ hret, hsleep]
      exact h w

theorem waitLoop_view (view : σ → α) (sleep : σ → σ) (fuel : Nat)
    (ds : List (Supervisable σ)) (i : Nat) (w w1 : σ) (hsleep : ∀ v, view (sleep v) = view v)
    (h : ∀ d ∈ ds, ∀ v, view (d.Active v).2 = view v)
    (hret : (waitLoop sleep fuel ds i w).2 = some w1) : view w1 = view w := by
  induction ds generalizing i w with
  | nil =>
    simp only [waitLoop, Option.some.injEq] at hret
    rw [← hret]
  | cons d rest ih =>
    simp only [waitLoop] at hret
    cases hp : (pollLoop sleep d i fuel w).2 with
    | none => rw [andThen_none _ _ hp, hp] at hret; cases hret
    | some w2 =>
      rw [andThen_some _ _ w2 hp] at hret
      rw [ih (i + 1) w2 (fun e he => h e (List.mem_cons_of_mem _ he)) hret]
      exact pollLoop_view view sleep d i fuel w w2 hsleep (h d (List.mem_cons_self _ _)) hp

/-- Whatever the members' calls and the sleeps leave alone, `Start` leaves
alone. -/
theorem Start_view (view : σ → α) (sleep : σ → σ) (fuel : Nat) (u : Unit σ) (w w1 : σ)
    (hsleep : ∀ v, view (sleep v) = view v)
    (hC : ∀ d ∈ u.Conflicts, ∀ v, view (d.Active v).2 = view v)
    (hD : ∀ d ∈ u.Deps, (∀ v, view (d.Active v).2 = view v)
      ∧ ∀ v v1, d.Start v = some v1 → view v1 = view v)
    (hret : (Unit.Start sleep fuel u w).2 = some w1) : view w1 = view w := by
  obtain ⟨tc, w2, hconf, _, hstart⟩ := Start_decompose sleep fuel u w
  rw [hstart] at hret
  cases hs : (startLoop u.Deps 0 w2).2 with
  | none => rw [andThen_none _ _ hs, hs] at hret; cases hret
  | some w3 =>
    rw [andThen_some _ _ w3 hs] at hret
    rw [waitLoop_view view sleep fuel u.Deps 0 w3 w1 hsleep (fun d hd => (hD d hd).1) hret,
      startLoop_view view u.Deps 0 w2 w3 hD hs]
    exact conflictLoop_view view u.Conflicts 0 w w2 hC (by rw [hconf])

/-- Every member of `Conflicts` is queried. -/
theorem Start_queries_conflicts (sleep : σ → σ) (fuel : Nat) (u : Unit σ) (w : σ) (i : Nat)
    (hi : i < u.Conflicts.length) :
    ∃ a, Call.Active Rel.Conflicts i a ∈ (Unit.Start sleep fuel u w).1 := by
  obtain ⟨as, w1, hlen, hrun⟩ := conflictLoop_shape u.Conflicts 0 w
  have hi2 : i < as.length := by rw [hlen]; exact hi
  refine ⟨as[i], ?_⟩
  simp only [Unit.Start, hrun]
  rw [andThen_some _ _ w1 rfl]
  apply List.mem_append_left
  apply List.mem_map.mpr
  refine ⟨(i, as[i]), ?_, rfl⟩
  rw [List.mk_mem_enumFrom_iff_le_and_getElem?_sub]
  simp [hi2]

end frame_lemmas

/-- C17, as stated, fails: a member that holds the unit writes to it in its
`Start()`; `Start` on the unit returns, and the unit's path and log buffer are
no longer those of before. -/
theorem Start_changes_unit_through_member :
    Unit.StartAt (World.unit [meddler] []) World.tick 1 World.init
      = ([Call.Active Rel.Deps 0 Inactive, Call.Start Rel.Deps 0,
          Call.Active Rel.Deps 0 Active],
         some ⟨1, ⟨Loaded, "/moved", ⟨0⟩, ⟨⟨0⟩⟩⟩, ⟨[111, 107, 10]⟩⟩)
    ∧ (World.unit [meddler] [] World.init).Path = ""
    ∧ (World.unit [meddler] [] ⟨1, ⟨Loaded, "/moved", ⟨0⟩, ⟨⟨0⟩⟩⟩, ⟨[111, 107, 10]⟩⟩).Path
        = "/moved"
    ∧ (World.unit [meddler] [] World.init).Buffer = ⟨[]⟩
    ∧ (World.unit [meddler] [] ⟨1, ⟨Loaded, "/moved", ⟨0⟩, ⟨⟨0⟩⟩⟩, ⟨[111, 107, 10]⟩⟩).Buffer
        = ⟨[111, 107, 10]⟩ := by
  refine ⟨by decide, rfl, rfl, rfl, rfl⟩

/-- C17, amended: `Start` itself writes nothing to the started unit.  For a
unit living in the program state, in every run of `Start` that returns, any
view of the unit (its name, definition, load status, `Deps`, `Conflicts`, log
buffer, or the whole unit) that the `Active()` and `Start()` calls on its
members and the sleeps leave alone is the same after the call as before it.
Every member of `Conflicts` is queried and none is started, and `Start` makes
no `Stop()` call at all: queries, starts of members of `Deps` and sleeps are
its only calls. -/
theorem Start_frame {σ : Type} (get : σ → Unit σ) (sleep : σ → σ) (fuel : Nat) (w w1 : σ)
    (hret : (Unit.StartAt get sleep fuel w).2 = some w1) :
    (∀ (α : Type) (view : Unit σ → α), (∀ v, view (get (sleep v)) = view (get v)) →
        (∀ d ∈ (get w).Conflicts, ∀ v, view (get (d.Active v).2) = view (get v)) →
        (∀ d ∈ (get w).Deps, (∀ v, view (get (d.Active v).2) = view (get v))
          ∧ ∀ v v1, d.Start v = some v1 → view (get v1) = view (get v)) →
        view (get w1) = view (get w))
    ∧ ((∀ v, get (sleep v) = get v) →
        (∀ d ∈ (get w).Conflicts, ∀ v, get (d.Active v).2 = get v) →
        (∀ d ∈ (get w).Deps, (∀ v, get (d.Active v).2 = get v)
          ∧ ∀ v v1, d.Start v = some v1 → get v1 = get v) →
        (get w1).Name = (get w).Name ∧ (get w1).Definition = (get w).Definition
          ∧ (get w1).loadStatus = (get w).loadStatus ∧ (get w1).Loaded = (get w).Loaded
          ∧ (get w1).Path = (get w).Path ∧ (get w1).Deps = (get w).Deps
          ∧ (get w1).Conflicts = (get w).Conflicts ∧ (get w1).Buffer = (get w).Buffer
          ∧ (get w1).Logger = (get w).Logger)
    ∧ (∀ c ∈ (Unit.StartAt get sleep fuel w).1,
        c = Call.Sleep ∨ (∃ l i a, c = Call.Active l i a) ∨ ∃ i, c = Call.Start Rel.Deps i)
    ∧ (∀ i, i < (get w).Conflicts.length →
        ∃ a, Call.Active Rel.Conflicts i a ∈ (Unit.StartAt get sleep fuel w).1) := by
  have hview : ∀ (α : Type) (view : Unit σ → α), (∀ v, view (get (sleep v)) = view (get v)) →
      (∀ d ∈ (get w).Conflicts, ∀ v, view (get (d.Active v).2) = view (get v)) →
      (∀ d ∈ (get w).Deps, (∀ v, view (get (d.Active v).2) = view (get v))
        ∧ ∀ v v1, d.Start v = some v1 → view (get v1) = view (get v)) →
      view (get w1) = view (get w) := by
    intro α view hsleep hC hD
    exact Start_view (fun v => view (get v)) sleep fuel (get w) w w1 hsleep hC hD hret
  refine ⟨hview, ?_, ?_, ?_⟩
  · intro hsleep hC hD
    have hsame : get w1 = get w := hview (Unit σ) id hsleep hC hD
    rw [hsame]
    exact ⟨rfl, rfl, rfl, rfl, rfl, rfl, rfl, rfl, rfl⟩
  · obtain ⟨tc, as, tw, htr, _, htc, htw⟩ := Start_phases sleep fuel (get w) w
    intro c hc
    simp only [Unit.StartAt] at hc
    rw [htr] at hc
    simp only [List.mem_append] at hc
    rcases hc with (h | h) | h
    · obtain ⟨i, a, h1⟩ := htc c h
      exact Or.inr (Or.inl ⟨_, i, a, h1⟩)
    · obtain ⟨i, h1 | h1⟩ := triggerBlock_calls as 0 c h
      · obtain ⟨a, h2⟩ := h1
        exact Or.inr (Or.inl ⟨_, i, a, h2⟩)
      · exact Or.inr (Or.inr ⟨i, h1⟩)
    · rcases htw c h with h1 | ⟨j, a, h1⟩
      · exact Or.inl h1
      · exact Or.inr (Or.inl ⟨_, j, a, h1⟩)
  · intro i hi
    exact Start_queries_conflicts sleep fuel (get w) w i hi

/-- The amended C17 at a unit in the program state whose dependency and
conflict keep to themselves: the run returns and the whole unit is as it
was. -/
theorem Start_frame_witness :
    (Unit.StartAt (World.unit [quietMember] [quietMember]) World.tick 1 World.init).2
        = some ⟨1, World.init.loadStatus, World.init.Buffer⟩
    ∧ (Unit.StartAt (World.unit [quietMember] [quietMember]) World.tick 1 World.init).1
        = [Call.Active Rel.Conflicts 0 Inactive,
           Call.Active Rel.Deps 0 Inactive, Call.Start Rel.Deps 0,
           Call.Active Rel.Deps 0 Active]
    ∧ World.unit [quietMember] [quietMember] ⟨1, World.init.loadStatus, World.init.Buffer⟩
        = World.unit [quietMember] [quietMember] World.init
    ∧ (∀ i, i < (World.unit [quietMember] [quietMember] World.init).Conflicts.length →
        ∃ a, Call.Active Rel.Conflicts i a
          ∈ (Unit.StartAt (World.unit [quietMember] [quietMember]) World.tick 1 World.init).1) :=
  have hret : (Unit.StartAt (World.unit [quietMember] [quietMember]) World.tick 1
      World.init).2 = some ⟨1, World.init.loadStatus, World.init.Buffer⟩ := by decide
  have hmem : ∀ d ∈ [quietMember], (∀ v, World.unit [quietMember] [quietMember] (d.Active v).2
        = World.unit [quietMember] [quietMember] v)
      ∧ ∀ v v1, d.Start v = some v1 →
        World.unit [quietMember] [quietMember] v1 = World.unit [quietMember] [quietMember] v := by
    intro d hd
    rw [List.mem_singleton.mp hd]
    refine ⟨fun _ => rfl, ?_⟩
    intro v v1 hs
    have : v1 = { v with clock := v.clock + 1 } := (Option.some.inj hs).symm
    rw [this]
    rfl
  ⟨hret, by decide,
    (Start_frame (World.unit [quietMember] [quietMember]) World.tick 1 World.init _ hret).1
      (Unit World) id (fun _ => rfl) (fun d hd => (hmem d hd).1) hmem,
    (Start_frame (World.unit [quietMember] [quietMember]) World.tick 1 World.init _
      hret).2.2.2⟩

end unit
